import Mathlib

/-!
Shallow embedding of `topo_order_commits.py` (graph construction, deterministic
topological sorting and run-boundary annotation of a git commit graph), together
with proofs of the specification's claims about it.

Modelling conventions:
  * Python `str` is `String`; Python `int` is `Int`; Python lists are `List`.
  * A Python `dict` keyed by commit hashes is an association list
    `List (String × _)` in insertion order (duplicate-free keys), or — when the
    code only ever reads and updates it pointwise, never iterating it — a
    function `String → Option _`.
  * Python `set` objects (`parents`, `children`, `visited`) are duplicate-free
    `List String` values; `add` is `insertSet`, iteration always goes through
    `sorted` in the source, which is `sortStrings` here.
  * A Python run that raises an uncaught exception (`KeyError`, `IndexError`,
    `zlib.error`) is modelled by `Option.none`.
  * The filesystem + zlib layer of `decompress_git_object` is abstracted as a
    store `String → Option (Option String)`: `none` = the object file is
    absent (`not os.path.exists`), `some none` = the file exists but
    `zlib.decompress`/`decode` raises, `some (some s)` = it decompresses to
    the text `s`.
-/

/-- `class CommitNode` from the source: a commit hash with its parent and
child hash sets (sets modelled as duplicate-free lists). -/
structure CommitNode where
  commit_hash : String
  parents : List String
  children : List String
deriving Repr, DecidableEq

/-- The `dict[str, CommitNode]` commit graph, in insertion order. -/
abbrev NodeTable := List (String × CommitNode)

/-- Abstract object store backing `decompress_git_object` (see module note). -/
abbrev ObjStore := String → Option (Option String)

/-- Keys of the table, in insertion order (`dict` iteration order). -/
def keysOf (t : NodeTable) : List String := t.map Prod.fst

/-- Code-point lexicographic `≤` on character lists: Python's `str`
comparison, written as a structurally recursive Boolean so that the kernel
can evaluate it. -/
def charsLe : List Char → List Char → Bool
  | [], _ => true
  | a :: as, bs =>
    match bs with
    | [] => false
    | b :: bs2 =>
      if a.toNat < b.toNat then true
      else if b.toNat < a.toNat then false
      else charsLe as bs2

/-- Python's `<=` on strings (code-point lexicographic order). -/
def sLe (a b : String) : Bool := charsLe a.data b.data

/-- `sLe` as a decidable relation. -/
def strLe (a b : String) : Prop := sLe a b = true

instance : DecidableRel strLe := fun a b => inferInstanceAs (Decidable (sLe a b = true))

/-- Sorted ascending in the Python string order. -/
def SortedLe (l : List String) : Prop := List.Sorted strLe l

instance (l : List String) : Decidable (SortedLe l) :=
  inferInstanceAs (Decidable (List.Pairwise strLe l))

/-- Python `str.startswith`, over the character lists. -/
def startsWithChars : List Char → List Char → Bool
  | [], _ => true
  | p :: ps, cs =>
    match cs with
    | [] => false
    | c :: cs2 => p = c && startsWithChars ps cs2

/-- `line.startswith(pre)`. -/
def strStartsWith (s pre : String) : Bool := startsWithChars pre.data s.data

/-- Helper for `pySplit`: accumulate the current (reversed) token. -/
def splitWsAux : List Char → List Char → List String
  | [], acc => if acc = [] then [] else [String.mk acc.reverse]
  | c :: cs, acc =>
    if c.isWhitespace then
      if acc = [] then splitWsAux cs [] else String.mk acc.reverse :: splitWsAux cs []
    else splitWsAux cs (c :: acc)

/-- Helper for `pyLines`: split at every newline character. -/
def splitNlAux : List Char → List Char → List String
  | [], acc => [String.mk acc.reverse]
  | c :: cs, acc =>
    if c = '\n' then String.mk acc.reverse :: splitNlAux cs []
    else splitNlAux cs (c :: acc)

/-- Python `decompressed.split('\n')`: split at newlines, keeping empties. -/
def pyLines (s : String) : List String := splitNlAux s.data []

/-- `graph[k]` as a total lookup; `none` models a `KeyError`. -/
def getNode : NodeTable → String → Option CommitNode
  | [], _ => none
  | (k', n) :: t, k => if k = k' then some n else getNode t k

/-- Python `set.add`: no-op on a member, otherwise append. -/
def insertSet (x : String) (l : List String) : List String :=
  if x ∈ l then l else l ++ [x]

/-- Python `sorted` on strings (insertion sort: by antisymmetry of the
order, any comparison sort yields the same list). -/
def sortStrings (l : List String) : List String :=
  List.insertionSort strLe l

/-- Python `str.split()` with no argument: split on whitespace runs,
dropping empty pieces. -/
def pySplit (s : String) : List String := splitWsAux s.data []

/-- `decompress_git_object(git_dir, commit_hash)` (source lines 59-75):
returns `[]` when the object file is absent, otherwise decompresses and
splits on newlines; a decompression/decoding failure raises (= `none`). -/
def decompress_git_object (store : ObjStore) (commit_hash : String) :
    Option (List String) :=
  match store commit_hash with
  | none => some []
  | some none => none
  | some (some content) => some (pyLines content)

/-- Create `graph[h]` on first sight (source lines 103-104 / 115-116). -/
def ensureNode (g : NodeTable) (h : String) : NodeTable :=
  if h ∈ keysOf g then g else g ++ [(h, ⟨h, [], []⟩)]

/-- Update the node stored at key `k` in place. -/
def updateNode (g : NodeTable) (k : String) (f : CommitNode → CommitNode) :
    NodeTable :=
  g.map (fun e => if e.1 = k then (e.1, f e.2) else e)

/-- Source lines 119-120: `graph[child].parents.add(par)` then
`graph[par].children.add(child)`. -/
def addParentEdge (g : NodeTable) (child par : String) : NodeTable :=
  updateNode (updateNode g child (fun n => { n with parents := insertSet par n.parents }))
    par (fun n => { n with children := insertSet child n.children })

/-- The record-scanning loop of `build_commit_graph` (source lines 110-126)
for the commit `h` being processed: walks the record's lines, adding a parent
edge and pushing the parent for every line whose text starts with `parent`
(taking the second whitespace token; fewer than two tokens is an
`IndexError` = `none`), and stopping at the first blank line. -/
def processLines (h : String) :
    List String → NodeTable → List String → Option (NodeTable × List String)
  | [], g, st => some (g, st)
  | line :: rest, g, st =>
    if strStartsWith line "parent" then
      match (pySplit line).get? 1 with
      | none => none
      | some ph => processLines h rest (addParentEdge (ensureNode g ph) h ph) (ph :: st)
    else if line = "" then some (g, st)
    else processLines h rest g st

/-- The worklist loop of `build_commit_graph` (source lines 94-127).
`fuel` bounds the number of pops (the Python loop has no static bound over an
arbitrary store); exhaustion yields `none`. -/
def buildLoop (store : ObjStore) :
    Nat → List String → List String → NodeTable → Option NodeTable
  | _, [], _, g => some g
  | 0, _ :: _, _, _ => none
  | fuel+1, h :: st, visited, g =>
    if h ∈ visited then buildLoop store fuel st visited g
    else
      match decompress_git_object store h with
      | none => none
      | some lines =>
        match processLines h lines (ensureNode g h) st with
        | none => none
        | some (g2, st2) => buildLoop store fuel st2 (h :: visited) g2

/-- `build_commit_graph(git_dir, branches_list)` (source lines 77-128): the
stack is seeded with the branch target hashes; Python pops from the list's
end, so the reversed seed list is the stack with its head on top. -/
def build_commit_graph (store : ObjStore) (fuel : Nat)
    (branches : List (String × String)) : Option NodeTable :=
  buildLoop store fuel (branches.map Prod.snd).reverse [] []

/-- The `in_degree` dict (source lines 137-139), as a pointwise map. -/
def initInDegree (t : NodeTable) (k : String) : Option Int :=
  (getNode t k).map (fun n => (n.parents.length : Int))

/-- `in_degree.items()` in insertion order. -/
def degreeItems (t : NodeTable) : List (String × Int) :=
  t.map (fun e => (e.1, (e.2.parents.length : Int)))

/-- Source lines 142-143: zero-degree keys in dict order, then sorted. -/
def initQueue (t : NodeTable) : List String :=
  sortStrings (((degreeItems t).filter (fun e => decide (e.2 = 0))).map Prod.fst)

/-- Source lines 152-156: for each child (ascending order) decrement its
in-degree; on reaching zero, append it to the queue and re-sort the queue.
A missing `in_degree` key is a `KeyError` (= `none`). -/
def processChildren :
    (String → Option Int) → List String → List String →
      Option ((String → Option Int) × List String)
  | deg, [], queue => some (deg, queue)
  | deg, c :: cs, queue =>
    match deg c with
    | none => none
    | some v =>
      let deg' : String → Option Int := fun k => if k = c then some (v - 1) else deg k
      let queue' := if v - 1 = 0 then sortStrings (queue ++ [c]) else queue
      processChildren deg' cs queue'

/-- The main Kahn loop of `topo_sort` (source lines 147-156). `fuel` bounds
the pops; for a duplicate-key-free table, `t.length` pops always suffice
(each key is enqueued at most once), so the exhaustion branch — which
returns the result accumulated so far, like an empty queue — is never taken
on a table that models a Python dict. -/
def sortLoop (t : NodeTable) :
    Nat → (String → Option Int) → List String → List String → Option (List String)
  | _, _, [], res => some res
  | 0, _, _ :: _, res => some res
  | fuel+1, deg, cur :: rest, res =>
    match getNode t cur with
    | none => none
    | some node =>
      match processChildren deg (sortStrings node.children) rest with
      | none => none
      | some (deg', queue') => sortLoop t fuel deg' queue' (res ++ [cur])

/-- `topo_sort(commit_nodes)` (source lines 130-159): Kahn's algorithm with
sorted tie-breaking, the construction order reversed at the end. -/
def topo_sort (t : NodeTable) : Option (List String) :=
  (sortLoop t t.length (initInDegree t) (initQueue t) []).map List.reverse

/-- Source lines 187-191: the commit's own output line, with the sorted
branch names when any map to it (`head_to_branches.get(h, [])`). -/
def commitLine (names : String → List String) (h : String) : String :=
  match names h with
  | [] => h
  | bs => h ++ " " ++ String.intercalate " " (sortStrings bs)

/-- Source lines 175-178: the sticky-end line for the previous commit. -/
def closingLine (parents : List String) : String :=
  match parents with
  | [] => "="
  | ps => String.intercalate " " (sortStrings ps) ++ "="

/-- Source lines 183-184: the sticky-start line for the current commit. -/
def openingLine (children : List String) : String :=
  "=" ++ String.join ((sortStrings children).map (fun c => " " ++ c))

/-- The loop of `print_topo_ordered_commits` (source lines 169-193), emitting
the printed lines in order; a `commit_nodes[...]` miss is a `KeyError`. -/
def annotLoop (t : NodeTable) (names : String → List String) :
    Option String → List String → Option (List String)
  | _, [] => some []
  | prev, h :: rest =>
    match getNode t h with
    | none => none
    | some node =>
      let boundary : Option (List String) :=
        match prev with
        | none => some []
        | some p =>
          if p ∈ node.children then some []
          else
            match getNode t p with
            | none => none
            | some pnode => some [closingLine pnode.parents, "", openingLine node.children]
      match boundary with
      | none => none
      | some b =>
        (annotLoop t names (some h) rest).map (fun ls => b ++ commitLine names h :: ls)

/-- `print_topo_ordered_commits(commit_nodes, topo_ordered_commits,
head_to_branches)` (source lines 161-193), as the list of printed lines. -/
def print_topo_ordered_commits (t : NodeTable) (order : List String)
    (names : String → List String) : Option (List String) :=
  annotLoop t names none order

/-- Every hash named in a parents or children set is a key of the table. -/
def ClosedTable (t : NodeTable) : Prop :=
  ∀ e ∈ t, (∀ p ∈ (e : String × CommitNode).2.parents, p ∈ keysOf t) ∧
    (∀ c ∈ e.2.children, c ∈ keysOf t)

/-- The spec's bidirectional adjacency invariant, over the table's entries. -/
def ConsistentTable (t : NodeTable) : Prop :=
  ∀ a ∈ t, ∀ b ∈ t,
    ((b : String × CommitNode).1 ∈ (a : String × CommitNode).2.parents ↔
      a.1 ∈ b.2.children)

/-- The parents/children lists faithfully model Python sets (no duplicates). -/
def SetLikeTable (t : NodeTable) : Prop :=
  ∀ e ∈ t, (e : String × CommitNode).2.parents.Nodup ∧ e.2.children.Nodup

/-- A table that models a `dict[str, CommitNode]` of set-valued nodes with
the spec's adjacency invariants. -/
def WFTable (t : NodeTable) : Prop :=
  (keysOf t).Nodup ∧ ClosedTable t ∧ ConsistentTable t ∧ SetLikeTable t

instance (t : NodeTable) : Decidable (ClosedTable t) :=
  inferInstanceAs (Decidable (∀ e ∈ t, (∀ p ∈ (e : String × CommitNode).2.parents,
    p ∈ keysOf t) ∧ (∀ c ∈ e.2.children, c ∈ keysOf t)))

instance (t : NodeTable) : Decidable (ConsistentTable t) :=
  inferInstanceAs (Decidable (∀ a ∈ t, ∀ b ∈ t,
    ((b : String × CommitNode).1 ∈ (a : String × CommitNode).2.parents ↔
      a.1 ∈ b.2.children)))

instance (t : NodeTable) : Decidable (SetLikeTable t) :=
  inferInstanceAs (Decidable (∀ e ∈ t,
    (e : String × CommitNode).2.parents.Nodup ∧ e.2.children.Nodup))

instance (t : NodeTable) : Decidable (WFTable t) :=
  inferInstanceAs (Decidable ((keysOf t).Nodup ∧ ClosedTable t ∧
    ConsistentTable t ∧ SetLikeTable t))

/-- `a` is an ancestor of `k` reachable by following at most `n` parent
edges of the table. -/
def isAncWithin (t : NodeTable) : Nat → String → String → Bool
  | 0, _, _ => false
  | n+1, a, k =>
    match getNode t k with
    | none => false
    | some node => node.parents.any (fun p => p == a || isAncWithin t n a p)

/-- No key is its own proper ancestor: the parent relation has no cycle
among the table's keys. -/
def AcyclicTable (t : NodeTable) : Prop :=
  ∀ k ∈ keysOf t, isAncWithin t t.length k k = false

instance (t : NodeTable) : Decidable (AcyclicTable t) :=
  inferInstanceAs (Decidable (∀ k ∈ keysOf t, isAncWithin t t.length k k = false))

/-- Number of parents of a node not yet emitted into `res`: the value
`in_degree` holds for that node during the Kahn loop. -/
def remainingCount (parents res : List String) : Nat :=
  (parents.filter (fun p => decide (p ∉ res))).length

/-- Two nodes with the same hash whose parent and children sets have the
same elements (set equality, iteration order ignored). -/
def NodeEquiv (n₁ n₂ : CommitNode) : Prop :=
  n₁.commit_hash = n₂.commit_hash ∧ n₁.parents.Perm n₂.parents ∧
    n₁.children.Perm n₂.children

/-- Two tables with the same mathematical content: the same key/node
mapping up to a permutation of the entry order and of each node's
parent/children iteration orders. -/
def TableEquiv (t₁ t₂ : NodeTable) : Prop :=
  ∃ t', List.Forall₂ (fun a b => a.1 = b.1 ∧ NodeEquiv a.2 b.2) t₁ t' ∧ t'.Perm t₂

/-- Rewriting of §4.4 of the spec, following its words: the lines the
annotator owes to one element of the sequence, given the previously emitted
element — a closing marker with the previous node's sorted parents, a blank
line and an opening marker with the current node's sorted children exactly
when a previous element exists and is not a direct child of the current
node, then always the current node's own line. -/
def annotBlockSpec (t : NodeTable) (names : String → List String)
    (prev : Option String) (h : String) : Option (List String) :=
  match getNode t h with
  | none => none
  | some node =>
    match prev with
    | none => some [commitLine names h]
    | some p =>
      if p ∈ node.children then some [commitLine names h]
      else
        match getNode t p with
        | none => none
        | some pnode =>
          some [closingLine pnode.parents, "", openingLine node.children,
            commitLine names h]

/-- Sequential fallible traversal (the `Option` effect of a Python loop that
may raise at each element). -/
def collectBlocks (g : α → Option β) : List α → Option (List β)
  | [] => some []
  | x :: xs =>
    match g x, collectBlocks g xs with
    | some b, some bs => some (b :: bs)
    | _, _ => none

/-- Lookup-based form of `ClosedTable`. -/
def ClosedG (g : NodeTable) : Prop :=
  ∀ k n, getNode g k = some n →
    (∀ p ∈ n.parents, p ∈ keysOf g) ∧ (∀ c ∈ n.children, c ∈ keysOf g)

/-- Lookup-based form of `ConsistentTable`. -/
def ConsG (g : NodeTable) : Prop :=
  ∀ a b na nb, getNode g a = some na → getNode g b = some nb →
    (b ∈ na.parents ↔ a ∈ nb.children)

/-- Lookup-based form of `SetLikeTable`. -/
def SetG (g : NodeTable) : Prop :=
  ∀ k n, getNode g k = some n → n.parents.Nodup ∧ n.children.Nodup

/-- The builder's running invariant, in lookup form. -/
def BuildWF (g : NodeTable) : Prop :=
  (keysOf g).Nodup ∧ ClosedG g ∧ ConsG g ∧ SetG g

/-- Spec view of the whole annotated output: every element contributes its
`annotBlockSpec` block with respect to its predecessor in the sequence. -/
def annotSpec (t : NodeTable) (names : String → List String)
    (order : List String) : Option (List String) :=
  (collectBlocks (fun e => annotBlockSpec t names e.2 e.1)
    (order.zip (none :: order.map some))).map List.flatten

/-! ### The Python string order -/

lemma charsLe_total : ∀ a b : List Char, charsLe a b = true ∨ charsLe b a = true := by
  intro a
  induction a with
  | nil => intro b; left; rfl
  | cons x xs ih =>
    intro b
    cases b with
    | nil => right; rfl
    | cons y ys =>
      by_cases h1 : x.toNat < y.toNat
      · left; simp [charsLe, h1]
      · by_cases h2 : y.toNat < x.toNat
        · right; simp [charsLe, h2]
        · rcases ih ys with h | h
          · left; simp [charsLe, h1, h2, h]
          · right; simp [charsLe, h1, h2, h]

lemma charsLe_bounds {x y : Char} {xs ys : List Char}
    (h : charsLe (x :: xs) (y :: ys) = true) :
    x.toNat ≤ y.toNat ∧ (x.toNat = y.toNat → charsLe xs ys = true) := by
  by_cases h1 : x.toNat < y.toNat
  · exact ⟨Nat.le_of_lt h1, fun he => absurd h1 (by omega)⟩
  · by_cases h2 : y.toNat < x.toNat
    · simp [charsLe, h1, h2] at h
    · have he : x.toNat = y.toNat := by omega
      simp [charsLe, h1, h2] at h
      exact ⟨Nat.le_of_eq he, fun _ => h⟩

lemma charsLe_of_eq_of_le {x y : Char} {xs ys : List Char}
    (he : x.toNat = y.toNat) (h : charsLe xs ys = true) :
    charsLe (x :: xs) (y :: ys) = true := by
  have h1 : ¬ x.toNat < y.toNat := by omega
  have h2 : ¬ y.toNat < x.toNat := by omega
  simp [charsLe, h1, h2, h]

lemma charsLe_trans :
    ∀ a b c : List Char, charsLe a b = true → charsLe b c = true →
      charsLe a c = true := by
  intro a
  induction a with
  | nil => intro b c _ _; rfl
  | cons x xs ih =>
    intro b c hab hbc
    cases b with
    | nil => simp [charsLe] at hab
    | cons y ys =>
      cases c with
      | nil => simp [charsLe] at hbc
      | cons z zs =>
        obtain ⟨hxy, hxy'⟩ := charsLe_bounds hab
        obtain ⟨hyz, hyz'⟩ := charsLe_bounds hbc
        by_cases h1 : x.toNat < z.toNat
        · simp [charsLe, h1]
        · have hez : x.toNat = z.toNat := by omega
          have hey : x.toNat = y.toNat := by omega
          exact charsLe_of_eq_of_le hez (ih ys zs (hxy' hey) (hyz' (by omega)))

lemma charsLe_antisymm :
    ∀ a b : List Char, charsLe a b = true → charsLe b a = true → a = b := by
  intro a
  induction a with
  | nil =>
    intro b _ hba
    cases b with
    | nil => rfl
    | cons y ys => simp [charsLe] at hba
  | cons x xs ih =>
    intro b hab hba
    cases b with
    | nil => simp [charsLe] at hab
    | cons y ys =>
      obtain ⟨hxy, hxy'⟩ := charsLe_bounds hab
      obtain ⟨hyx, hyx'⟩ := charsLe_bounds hba
      have he : x.toNat = y.toNat := by omega
      have hx : x = y := by
        apply Char.ext
        apply UInt32.ext
        exact he
      rw [hx, ih ys (hxy' he) (hyx' he.symm)]

instance : IsTotal String strLe :=
  ⟨fun a b => charsLe_total a.data b.data⟩

instance : IsTrans String strLe :=
  ⟨fun a b c => charsLe_trans a.data b.data c.data⟩

instance : IsAntisymm String strLe := by
  constructor
  intro a b hab hba
  have h := charsLe_antisymm a.data b.data hab hba
  cases a
  cases b
  simp only at h
  rw [h]

lemma sortStrings_perm (l : List String) : (sortStrings l).Perm l :=
  List.perm_insertionSort strLe l

lemma sortedLe_sortStrings (l : List String) : SortedLe (sortStrings l) :=
  List.sorted_insertionSort strLe l

lemma mem_sortStrings {x : String} {l : List String} :
    x ∈ sortStrings l ↔ x ∈ l :=
  (sortStrings_perm l).mem_iff

lemma sortStrings_nodup {l : List String} (h : l.Nodup) :
    (sortStrings l).Nodup :=
  (sortStrings_perm l).nodup_iff.mpr h

/-! ### Table lookup -/

lemma getNode_eq_none {t : NodeTable} {k : String} :
    getNode t k = none ↔ k ∉ keysOf t := by
  induction t with
  | nil => simp [getNode, keysOf]
  | cons e t ih =>
    obtain ⟨k', n⟩ := e
    by_cases h : k = k'
    · subst h
      simp [getNode, keysOf]
    · simp [getNode, keysOf, h, ih, Ne.symm h]

lemma getNode_isSome {t : NodeTable} {k : String} (h : k ∈ keysOf t) :
    ∃ n, getNode t k = some n := by
  cases hg : getNode t k with
  | none => exact absurd (getNode_eq_none.mp hg) (not_not_intro h)
  | some n => exact ⟨n, rfl⟩

lemma mem_keysOf_of_getNode {t : NodeTable} {k : String} {n : CommitNode}
    (h : getNode t k = some n) : k ∈ keysOf t := by
  by_contra hc
  rw [getNode_eq_none.mpr hc] at h
  exact Option.noConfusion h

lemma getNode_mem {t : NodeTable} {k : String} {n : CommitNode}
    (h : getNode t k = some n) : (k, n) ∈ t := by
  induction t with
  | nil => simp [getNode] at h
  | cons e t ih =>
    obtain ⟨k', n'⟩ := e
    by_cases hk : k = k'
    · subst hk
      simp [getNode] at h
      simp [h]
    · simp [getNode, hk] at h
      simp [ih h]

lemma getNode_of_mem {t : NodeTable} {k : String} {n : CommitNode}
    (hnd : (keysOf t).Nodup) (h : (k, n) ∈ t) : getNode t k = some n := by
  induction t with
  | nil => simp at h
  | cons e t ih =>
    obtain ⟨k', n'⟩ := e
    simp only [keysOf, List.map_cons, List.nodup_cons] at hnd
    rcases List.mem_cons.mp h with h1 | h1
    · rw [Prod.mk.injEq] at h1
      obtain ⟨h2, h3⟩ := h1
      subst h2
      subst h3
      simp [getNode]
    · have hk : k ≠ k' := by
        intro he
        subst he
        exact hnd.1 (by simpa [keysOf] using List.mem_map_of_mem Prod.fst h1)
      simp [getNode, hk, ih hnd.2 h1]

lemma keysOf_append (g l : NodeTable) : keysOf (g ++ l) = keysOf g ++ keysOf l := by
  simp [keysOf]

lemma getNode_append_left {g l : NodeTable} {k : String} (h : k ∈ keysOf g) :
    getNode (g ++ l) k = getNode g k := by
  induction g with
  | nil => simp [keysOf] at h
  | cons e g ih =>
    obtain ⟨k', n⟩ := e
    by_cases hk : k = k'
    · simp [getNode, hk]
    · simp only [keysOf, List.map_cons, List.mem_cons] at h
      rcases h with h | h
      · exact absurd h hk
      · simp [getNode, hk, ih h]

lemma getNode_append_right {g l : NodeTable} {k : String} (h : k ∉ keysOf g) :
    getNode (g ++ l) k = getNode l k := by
  induction g with
  | nil => simp
  | cons e g ih =>
    obtain ⟨k', n⟩ := e
    simp only [keysOf, List.map_cons, List.mem_cons] at h
    push_neg at h
    simp [getNode, h.1, ih h.2]

/-! ### `updateNode` and `ensureNode` -/

lemma keysOf_updateNode (g : NodeTable) (k : String) (f : CommitNode → CommitNode) :
    keysOf (updateNode g k f) = keysOf g := by
  induction g with
  | nil => rfl
  | cons e g ih =>
    obtain ⟨k', n⟩ := e
    by_cases hk : k' = k <;> simp [updateNode, keysOf, hk] <;>
      simpa [updateNode, keysOf] using ih

lemma getNode_updateNode (g : NodeTable) (k : String) (f : CommitNode → CommitNode)
    (k' : String) :
    getNode (updateNode g k f) k' =
      if k' = k then (getNode g k).map f else getNode g k' := by
  induction g with
  | nil => simp [updateNode, getNode]
  | cons e g ih =>
    obtain ⟨a, n⟩ := e
    simp only [updateNode, List.map_cons] at ih ⊢
    by_cases ha : a = k
    · subst ha
      have hhead : (if (a, n).1 = a then ((a, n).1, f (a, n).2) else (a, n)) = (a, f n) := by
        simp
      rw [hhead]
      by_cases hk : k' = a
      · subst hk
        simp [getNode]
      · simp [getNode, hk, ih]
    · have hhead : (if (a, n).1 = k then ((a, n).1, f (a, n).2) else (a, n)) = (a, n) := by
        simp [ha]
      rw [hhead]
      have ha' : ¬ k = a := fun he => ha he.symm
      by_cases hk : k' = a
      · subst hk
        simp [getNode, ha, ha']
      · simp [getNode, hk, ha', ih]

lemma keysOf_ensureNode (g : NodeTable) (h : String) :
    keysOf (ensureNode g h) = if h ∈ keysOf g then keysOf g else keysOf g ++ [h] := by
  by_cases hm : h ∈ keysOf g
  · rw [ensureNode, if_pos hm, if_pos hm]
  · rw [ensureNode, if_neg hm, if_neg hm, keysOf_append]
    rfl

lemma mem_keysOf_ensureNode (g : NodeTable) (h k : String) :
    k ∈ keysOf (ensureNode g h) ↔ k ∈ keysOf g ∨ k = h := by
  rw [keysOf_ensureNode]
  by_cases hm : h ∈ keysOf g
  · simp only [hm, if_true]
    constructor
    · exact fun hk => Or.inl hk
    · rintro (hk | hk)
      · exact hk
      · exact hk ▸ hm
  · simp [hm]

lemma getNode_ensureNode (g : NodeTable) (h k : String) :
    getNode (ensureNode g h) k =
      if k ∈ keysOf g then getNode g k
      else if k = h then some ⟨h, [], []⟩ else none := by
  by_cases hm : h ∈ keysOf g
  · by_cases hk : k ∈ keysOf g
    · simp [ensureNode, hm, hk]
    · have : getNode g k = none := getNode_eq_none.mpr hk
      by_cases he : k = h
      · subst he
        exact absurd hm hk
      · simp [ensureNode, hm, hk, he, this]
  · by_cases hk : k ∈ keysOf g
    · simp [ensureNode, hm, hk, getNode_append_left hk]
    · have h1 : getNode (g ++ [(h, ⟨h, [], []⟩)]) k = getNode [(h, ⟨h, [], []⟩)] k :=
        getNode_append_right hk
      by_cases he : k = h
      · subst he
        simp [ensureNode, hm, hk, h1, getNode]
      · simp [ensureNode, hm, hk, he, h1, getNode]

lemma nodup_keysOf_ensureNode {g : NodeTable} (hnd : (keysOf g).Nodup)
    (h : String) : (keysOf (ensureNode g h)).Nodup := by
  rw [keysOf_ensureNode]
  by_cases hm : h ∈ keysOf g
  · simpa [hm]
  · simp [hm, List.nodup_append, hnd]

/-- Canonical form: set-equal inputs sort to the same list. -/
lemma sortStrings_eq_of_perm {l₁ l₂ : List String} (h : l₁.Perm l₂) :
    sortStrings l₁ = sortStrings l₂ :=
  List.eq_of_perm_of_sorted (r := strLe)
    (((sortStrings_perm l₁).trans h).trans (sortStrings_perm l₂).symm)
    (sortedLe_sortStrings l₁) (sortedLe_sortStrings l₂)

/-! ### `insertSet` -/

lemma mem_insertSet {p x : String} {l : List String} :
    p ∈ insertSet x l ↔ p ∈ l ∨ p = x := by
  by_cases hm : x ∈ l
  · simp only [insertSet, if_pos hm]
    constructor
    · exact fun h => Or.inl h
    · rintro (h | h)
      · exact h
      · exact h ▸ hm
  · simp [insertSet, hm]

lemma insertSet_nodup {x : String} {l : List String} (h : l.Nodup) :
    (insertSet x l).Nodup := by
  by_cases hm : x ∈ l
  · simpa [insertSet, hm]
  · simp [insertSet, hm, List.nodup_append, h]

lemma insertSet_perm_of_mem {x : String} {l : List String} (h : x ∈ l) :
    insertSet x l = l := by
  simp [insertSet, h]

/-! ### `addParentEdge` -/

lemma keysOf_addParentEdge (g : NodeTable) (child par : String) :
    keysOf (addParentEdge g child par) = keysOf g := by
  simp [addParentEdge, keysOf_updateNode]

/-- The parents set of the child after an edge insertion. -/
lemma addParentEdge_child_parents {g : NodeTable} {child : String} {n : CommitNode}
    (hn : getNode g child = some n) (par : String) :
    ∃ n', getNode (addParentEdge g child par) child = some n' ∧
      n'.parents = insertSet par n.parents := by
  by_cases he : child = par
  · subst he
    simp [addParentEdge, getNode_updateNode, hn]
  · have he' : ¬ child = par := he
    refine ⟨⟨n.commit_hash, insertSet par n.parents, n.children⟩, ?_, rfl⟩
    rw [addParentEdge, getNode_updateNode, if_neg he', getNode_updateNode, if_pos rfl, hn]
    rfl

/-- The children set of the parent after an edge insertion. -/
lemma addParentEdge_par_children {g : NodeTable} {child par : String} {n : CommitNode}
    (hn : getNode (updateNode g child
      (fun n => { n with parents := insertSet par n.parents })) par = some n) :
    getNode (addParentEdge g child par) par =
      some ⟨n.commit_hash, n.parents, insertSet child n.children⟩ := by
  rw [addParentEdge, getNode_updateNode, if_pos rfl, hn]
  rfl

/-- Nodes other than the child keep their parents under an edge insertion. -/
lemma addParentEdge_other_parents {g : NodeTable} {child par k : String}
    (hk : k ≠ child) {n : CommitNode} (hn : getNode g k = some n) :
    ∃ n', getNode (addParentEdge g child par) k = some n' ∧
      n'.parents = n.parents ∧ n'.commit_hash = n.commit_hash := by
  rw [addParentEdge, getNode_updateNode]
  by_cases hp : k = par
  · subst hp
    rw [if_pos rfl, getNode_updateNode, if_neg hk, hn]
    exact ⟨_, rfl, rfl, rfl⟩
  · rw [if_neg hp, getNode_updateNode, if_neg hk, hn]
    exact ⟨n, rfl, rfl, rfl⟩

/-! ### C1: behaviour of the sorter on a cyclic table -/

/-- C1: the claim says a cyclic NodeTable makes the sorter report a fatal
structural-integrity error. The code has no such check: on the two-node
cycle a⇄b, `topo_sort` silently returns the empty — truncated — sequence
(fewer than the table's 2 nodes), and the caller prints it with exit
status 0. This contradicts the claimed (and spec-mandated) fail-fast
contract, so the code, not the claim, is at fault. -/
theorem C1_cycle_silently_truncated :
    topo_sort [("a", ⟨"a", ["b"], ["b"]⟩), ("b", ⟨"b", ["a"], ["a"]⟩)] = some [] ∧
      ([("a", ⟨"a", ["b"], ["b"]⟩), ("b", ⟨"b", ["a"], ["a"]⟩)] : NodeTable).length = 2 := by
  constructor
  · decide
  · rfl

/-! ### C6: which record lines declare a parent edge -/

lemma strStartsWith_empty_parent : strStartsWith "" "parent" = false := by decide

lemma nodup_keysOf_processLines :
    ∀ (lines : List String) (h : String) (g : NodeTable) (st : List String)
      (g' : NodeTable) (st' : List String),
      (keysOf g).Nodup → processLines h lines g st = some (g', st') →
      (keysOf g').Nodup ∧ ∀ k ∈ keysOf g, k ∈ keysOf g' := by
  intro lines
  induction lines with
  | nil =>
    intro h g st g' st' hnd hpl
    simp only [processLines, Option.some.injEq, Prod.mk.injEq] at hpl
    obtain ⟨h1, _⟩ := hpl
    subst h1
    exact ⟨hnd, fun k hk => hk⟩
  | cons line rest ih =>
    intro h g st g' st' hnd hpl
    simp only [processLines] at hpl
    by_cases hsw : strStartsWith line "parent" = true
    · rw [if_pos hsw] at hpl
      cases hget : (pySplit line).get? 1 with
      | none => rw [hget] at hpl; exact absurd hpl (by simp)
      | some ph =>
        rw [hget] at hpl
        simp only at hpl
        have hnd1 : (keysOf (addParentEdge (ensureNode g ph) h ph)).Nodup := by
          rw [keysOf_addParentEdge]
          exact nodup_keysOf_ensureNode hnd ph
        obtain ⟨ha, hb⟩ := ih h _ (ph :: st) g' st' hnd1 hpl
        refine ⟨ha, fun k hk => hb k ?_⟩
        rw [keysOf_addParentEdge]
        exact (mem_keysOf_ensureNode g ph k).mpr (Or.inl hk)
    · rw [if_neg hsw] at hpl
      by_cases hbl : line = ""
      · rw [if_pos hbl] at hpl
        simp only [Option.some.injEq, Prod.mk.injEq] at hpl
        obtain ⟨h1, _⟩ := hpl
        subst h1
        exact ⟨hnd, fun k hk => hk⟩
      · rw [if_neg hbl] at hpl
        exact ih h g st g' st' hnd hpl

lemma processLines_parents_char :
    ∀ (lines : List String) (h p : String) (g : NodeTable) (st : List String)
      (g' : NodeTable) (st' : List String) (n n' : CommitNode),
      (keysOf g).Nodup → getNode g h = some n →
      processLines h lines g st = some (g', st') →
      getNode g' h = some n' →
      (p ∈ n'.parents ↔ p ∈ n.parents ∨
        ∃ line ∈ lines.takeWhile (fun l => decide (l ≠ "")),
          strStartsWith line "parent" = true ∧ (pySplit line).get? 1 = some p) := by
  intro lines
  induction lines with
  | nil =>
    intro h p g st g' st' n n' hnd hn hpl hn'
    simp only [processLines, Option.some.injEq, Prod.mk.injEq] at hpl
    obtain ⟨h1, _⟩ := hpl
    subst h1
    rw [hn] at hn'
    obtain rfl : n = n' := by injection hn'
    simp
  | cons line rest ih =>
    intro h p g st g' st' n n' hnd hn hpl hn'
    simp only [processLines] at hpl
    by_cases hsw : strStartsWith line "parent" = true
    · rw [if_pos hsw] at hpl
      cases hget : (pySplit line).get? 1 with
      | none => rw [hget] at hpl; exact absurd hpl (by simp)
      | some ph =>
        rw [hget] at hpl
        simp only at hpl
        have hmem : h ∈ keysOf g := mem_keysOf_of_getNode hn
        have hne : getNode (ensureNode g ph) h = some n := by
          rw [getNode_ensureNode, if_pos hmem]
          exact hn
        obtain ⟨n₁, hn₁, hpar₁⟩ := addParentEdge_child_parents hne ph
        have hnd1 : (keysOf (addParentEdge (ensureNode g ph) h ph)).Nodup := by
          rw [keysOf_addParentEdge]
          exact nodup_keysOf_ensureNode hnd ph
        have hiff := ih h p _ (ph :: st) g' st' n₁ n' hnd1 hn₁ hpl hn'
        have hlb : line ≠ "" := by
          intro hb
          rw [hb] at hsw
          exact absurd hsw (by rw [strStartsWith_empty_parent]; simp)
        rw [hiff, hpar₁]
        rw [List.takeWhile_cons_of_pos (by simpa using hlb)]
        constructor
        · rintro (hm | ⟨l, hl, hP⟩)
          · rcases mem_insertSet.mp hm with hm | hm
            · exact Or.inl hm
            · exact Or.inr ⟨line, List.mem_cons_self .., ⟨hsw, by rw [hget, hm]⟩⟩
          · exact Or.inr ⟨l, List.mem_cons_of_mem _ hl, hP⟩
        · rintro (hm | ⟨l, hl, hP⟩)
          · exact Or.inl (mem_insertSet.mpr (Or.inl hm))
          · rcases List.mem_cons.mp hl with hl | hl
            · subst hl
              obtain ⟨_, hP2⟩ := hP
              rw [hget] at hP2
              obtain rfl : ph = p := by injection hP2
              exact Or.inl (mem_insertSet.mpr (Or.inr rfl))
            · exact Or.inr ⟨l, hl, hP⟩
    · rw [if_neg hsw] at hpl
      by_cases hbl : line = ""
      · rw [if_pos hbl] at hpl
        simp only [Option.some.injEq, Prod.mk.injEq] at hpl
        obtain ⟨h1, _⟩ := hpl
        subst h1
        rw [hn] at hn'
        obtain rfl : n = n' := by injection hn'
        subst hbl
        simp
      · rw [if_neg hbl] at hpl
        have hiff := ih h p g st g' st' n n' hnd hn hpl hn'
        rw [hiff]
        rw [List.takeWhile_cons_of_pos (by simpa using hbl)]
        constructor
        · rintro (hm | ⟨l, hl, hP⟩)
          · exact Or.inl hm
          · exact Or.inr ⟨l, List.mem_cons_of_mem _ hl, hP⟩
        · rintro (hm | ⟨l, hl, hP⟩)
          · exact Or.inl hm
          · rcases List.mem_cons.mp hl with hl | hl
            · subst hl
              exact absurd hP.1 hsw
            · exact Or.inr ⟨l, hl, hP⟩

/-- C6 counterexample: the code tests `line.startswith('parent')`, not
"the token `parent` followed by whitespace". Feeding the record line
`parenthood x` to the builder adds the edge h→x although the line's first
whitespace token is `parenthood`, not `parent` — so the claimed
if-and-only-if condition is false on this input. -/
theorem C6_counterexample :
    build_commit_graph
        (fun k => if k = "h" then some (some "parenthood x") else none) 3
        [("main", "h")] =
      some [("h", ⟨"h", ["x"], []⟩), ("x", ⟨"x", [], ["h"]⟩)] ∧
      (pySplit "parenthood x").get? 0 = some "parenthood" ∧
      strStartsWith "parenthood x" "parent " = false := by
  refine ⟨by decide, by decide, by decide⟩

/-- C6 (amended): for every record handed to the graph builder, a parent
edge p is added to the node being processed exactly when some line
strictly before the first blank line has text starting with the six
characters `parent` (Python's `startswith` test — `parenthood x` also
matches) and `p` is that line's second whitespace-separated token; lines
at or after the first blank line never declare an edge. -/
theorem C6_amended_parent_edges (lines : List String) (h p : String) (g : NodeTable)
    (st : List String) (g' : NodeTable) (st' : List String) (n n' : CommitNode)
    (hnd : (keysOf g).Nodup) (hn : getNode g h = some n)
    (hpl : processLines h lines g st = some (g', st'))
    (hn' : getNode g' h = some n') :
    p ∈ n'.parents ↔ p ∈ n.parents ∨
      ∃ line ∈ lines.takeWhile (fun l => decide (l ≠ "")),
        strStartsWith line "parent" = true ∧ (pySplit line).get? 1 = some p :=
  processLines_parents_char lines h p g st g' st' n n' hnd hn hpl hn'

/-- C6 witness: a concrete record with a parent line, a free-text line, a
blank line and a post-blank parent line; the post-blank `parent p2` line
declares no edge. -/
theorem C6_witness :
    "p2" ∈ (⟨"h", ["p1"], []⟩ : CommitNode).parents ↔ "p2" ∈ ([] : List String) ∨
      ∃ line ∈ (["parent p1", "junk", "", "parent p2"].takeWhile
          (fun l => decide (l ≠ ""))),
        strStartsWith line "parent" = true ∧ (pySplit line).get? 1 = some "p2" :=
  C6_amended_parent_edges ["parent p1", "junk", "", "parent p2"] "h" "p2"
    [("h", ⟨"h", [], []⟩)] [] [("h", ⟨"h", ["p1"], []⟩), ("p1", ⟨"p1", [], ["h"]⟩)]
    ["p1"] ⟨"h", [], []⟩ ⟨"h", ["p1"], []⟩ (by decide) (by decide) (by decide) (by decide)

/-! ### C7: missing objects -/

lemma processLines_other_parents :
    ∀ (lines : List String) (h : String) (g : NodeTable) (st : List String)
      (g' : NodeTable) (st' : List String) (k : String) (n : CommitNode),
      processLines h lines g st = some (g', st') → k ≠ h →
      getNode g k = some n →
      ∃ n2, getNode g' k = some n2 ∧ n2.parents = n.parents := by
  intro lines
  induction lines with
  | nil =>
    intro h g st g' st' k n hpl hk hn
    simp only [processLines, Option.some.injEq, Prod.mk.injEq] at hpl
    obtain ⟨h1, _⟩ := hpl
    subst h1
    exact ⟨n, hn, rfl⟩
  | cons line rest ih =>
    intro h g st g' st' k n hpl hk hn
    simp only [processLines] at hpl
    by_cases hsw : strStartsWith line "parent" = true
    · rw [if_pos hsw] at hpl
      cases hget : (pySplit line).get? 1 with
      | none => rw [hget] at hpl; exact absurd hpl (by simp)
      | some ph =>
        rw [hget] at hpl
        simp only at hpl
        have hne : getNode (ensureNode g ph) k = some n := by
          rw [getNode_ensureNode, if_pos (mem_keysOf_of_getNode hn)]
          exact hn
        obtain ⟨n1, hn1, hp1, _⟩ := addParentEdge_other_parents hk hne
        obtain ⟨n2, hn2, hp2⟩ := ih h _ (ph :: st) g' st' k n1 hpl hk hn1
        exact ⟨n2, hn2, hp2.trans hp1⟩
    · rw [if_neg hsw] at hpl
      by_cases hbl : line = ""
      · rw [if_pos hbl] at hpl
        simp only [Option.some.injEq, Prod.mk.injEq] at hpl
        obtain ⟨h1, _⟩ := hpl
        subst h1
        exact ⟨n, hn, rfl⟩
      · rw [if_neg hbl] at hpl
        exact ih h g st g' st' k n hpl hk hn

lemma buildLoop_frozen_parents (store : ObjStore) :
    ∀ (fuel : Nat) (st visited : List String) (g gf : NodeTable) (h : String)
      (n : CommitNode),
      h ∈ visited → getNode g h = some n →
      buildLoop store fuel st visited g = some gf →
      ∃ n2, getNode gf h = some n2 ∧ n2.parents = n.parents := by
  intro fuel
  induction fuel with
  | zero =>
    intro st visited g gf h n hvis hn hb
    cases st with
    | nil =>
      simp only [buildLoop, Option.some.injEq] at hb
      subst hb
      exact ⟨n, hn, rfl⟩
    | cons h' st' => exact absurd hb (by simp [buildLoop])
  | succ fuel ih =>
    intro st visited g gf h n hvis hn hb
    cases st with
    | nil =>
      simp only [buildLoop, Option.some.injEq] at hb
      subst hb
      exact ⟨n, hn, rfl⟩
    | cons h' st' =>
      simp only [buildLoop] at hb
      by_cases hv : h' ∈ visited
      · rw [if_pos hv] at hb
        exact ih st' visited g gf h n hvis hn hb
      · rw [if_neg hv] at hb
        have hne : h ≠ h' := fun he => hv (he ▸ hvis)
        cases hd : decompress_git_object store h' with
        | none => rw [hd] at hb; exact absurd hb (by simp)
        | some lines =>
          rw [hd] at hb
          simp only at hb
          cases hpl : processLines h' lines (ensureNode g h') st' with
          | none => rw [hpl] at hb; exact absurd hb (by simp)
          | some p =>
            obtain ⟨g2, st2⟩ := p
            rw [hpl] at hb
            simp only at hb
            have hne2 : getNode (ensureNode g h') h = some n := by
              rw [getNode_ensureNode, if_pos (mem_keysOf_of_getNode hn)]
              exact hn
            obtain ⟨n1, hn1, hp1⟩ :=
              processLines_other_parents lines h' (ensureNode g h') st' g2 st2 h n
                hpl hne hne2
            obtain ⟨n2, hn2, hp2⟩ :=
              ih st2 (h' :: visited) g2 gf h n1 (List.mem_cons_of_mem _ hvis) hn1 hb
            exact ⟨n2, hn2, hp2.trans hp1⟩

/-- C7 counterexample: the claim says a missing *or unreadable* stored
object yields an empty line sequence rather than raising. The code guards
only absence (`os.path.exists`); a present-but-undecompressable object
reaches `zlib.decompress` unguarded and raises. On a store whose object
`a` exists but cannot be decompressed, the reader raises (`none`) instead
of returning `some []`. -/
theorem C7_counterexample :
    decompress_git_object (fun k => if k = "a" then some none else none) "a" = none ∧
      decompress_git_object (fun k => if k = "a" then some none else none) "a" ≠
        some [] := by
  refine ⟨by decide, by decide⟩

/-- C7 (amended): a *missing* stored object (absent file) yields the empty
line sequence rather than raising; the graph builder then records the node
as a leaf — its record contributes no parent line, the traversal simply
moves on to the rest of the worklist, and the node's parents set is the
empty set in whatever table the build returns. (An unreadable-but-present
object instead raises, see the counterexample.) -/
theorem C7_missing_object_leaf :
    (∀ (store : ObjStore) (h : String), store h = none →
      decompress_git_object store h = some []) ∧
    (∀ (store : ObjStore) (fuel : Nat) (h : String) (st visited : List String)
      (g : NodeTable), store h = none → h ∉ visited →
      buildLoop store (fuel + 1) (h :: st) visited g =
        buildLoop store fuel st (h :: visited) (ensureNode g h)) ∧
    (∀ (store : ObjStore) (fuel : Nat) (h : String) (st visited : List String)
      (g gf : NodeTable), store h = none → h ∉ visited → getNode g h = none →
      buildLoop store (fuel + 1) (h :: st) visited g = some gf →
      ∃ n', getNode gf h = some n' ∧ n'.parents = []) := by
  have hread : ∀ (store : ObjStore) (h : String), store h = none →
      decompress_git_object store h = some [] := by
    intro store h hs
    simp [decompress_git_object, hs]
  have hstep : ∀ (store : ObjStore) (fuel : Nat) (h : String) (st visited : List String)
      (g : NodeTable), store h = none → h ∉ visited →
      buildLoop store (fuel + 1) (h :: st) visited g =
        buildLoop store fuel st (h :: visited) (ensureNode g h) := by
    intro store fuel h st visited g hs hv
    simp only [buildLoop, if_neg hv, hread store h hs]
    rfl
  refine ⟨hread, hstep, ?_⟩
  intro store fuel h st visited g gf hs hv hg hb
  rw [hstep store fuel h st visited g hs hv] at hb
  have hns : getNode (ensureNode g h) h = some ⟨h, [], []⟩ := by
    rw [getNode_ensureNode, if_neg (getNode_eq_none.mp hg), if_pos rfl]
  obtain ⟨n2, hn2, hp2⟩ :=
    buildLoop_frozen_parents store fuel st (h :: visited) (ensureNode g h) gf h
      ⟨h, [], []⟩ (List.mem_cons_self ..) hns hb
  exact ⟨n2, hn2, hp2⟩

/-- C7 witness: a store with no objects at all; the single seed `a` becomes
a parentless leaf in the returned table. -/
theorem C7_witness :
    ∃ n', getNode [("a", ⟨"a", [], []⟩)] "a" = some n' ∧ n'.parents = [] :=
  C7_missing_object_leaf.2.2 (fun _ => none) 1 "a" [] [] [] [("a", ⟨"a", [], []⟩)]
    rfl (by decide) (by decide) (by decide)

/-! ### C9/C10: invariants of the built graph -/

lemma getNode_addParentEdge (g : NodeTable) (child par k : String) :
    getNode (addParentEdge g child par) k =
      (getNode g k).map (fun n =>
        ⟨n.commit_hash,
         if k = child then insertSet par n.parents else n.parents,
         if k = par then insertSet child n.children else n.children⟩) := by
  rw [addParentEdge, getNode_updateNode]
  by_cases hp : k = par
  · subst hp
    rw [if_pos rfl, getNode_updateNode]
    by_cases hc : k = child
    · subst hc
      rw [if_pos rfl]
      cases getNode g k <;> simp
    · rw [if_neg hc]
      cases getNode g k <;> simp [hc]
  · rw [if_neg hp, getNode_updateNode]
    by_cases hc : k = child
    · subst hc
      rw [if_pos rfl]
      cases getNode g k <;> simp [hp]
    · rw [if_neg hc]
      cases getNode g k <;> simp [hp, hc]

lemma closedTable_of_closedG {g : NodeTable} (hnd : (keysOf g).Nodup)
    (h : ClosedG g) : ClosedTable g := by
  intro e he
  exact h e.1 e.2 (getNode_of_mem hnd he)

lemma closedG_of_closedTable {g : NodeTable} (h : ClosedTable g) : ClosedG g := by
  intro k n hk
  exact h (k, n) (getNode_mem hk)

lemma consistentTable_of_consG {g : NodeTable} (hnd : (keysOf g).Nodup)
    (h : ConsG g) : ConsistentTable g := by
  intro a ha b hb
  exact h a.1 b.1 a.2 b.2 (getNode_of_mem hnd ha) (getNode_of_mem hnd hb)

lemma consG_of_consistentTable {g : NodeTable} (h : ConsistentTable g) : ConsG g := by
  intro a b na nb ha hb
  exact h (a, na) (getNode_mem ha) (b, nb) (getNode_mem hb)

lemma setLikeTable_of_setG {g : NodeTable} (hnd : (keysOf g).Nodup)
    (h : SetG g) : SetLikeTable g := by
  intro e he
  exact h e.1 e.2 (getNode_of_mem hnd he)

lemma setG_of_setLikeTable {g : NodeTable} (h : SetLikeTable g) : SetG g := by
  intro k n hk
  exact h (k, n) (getNode_mem hk)

lemma buildWF_nil : BuildWF [] := by
  refine ⟨List.nodup_nil, ?_, ?_, ?_⟩
  · intro k n hk
    simp [getNode] at hk
  · intro a b na nb ha
    simp [getNode] at ha
  · intro k n hk
    simp [getNode] at hk

lemma buildWF_ensureNode {g : NodeTable} (hwf : BuildWF g) (x : String) :
    BuildWF (ensureNode g x) := by
  obtain ⟨hnd, hcl, hco, hsl⟩ := hwf
  by_cases hm : x ∈ keysOf g
  · rw [ensureNode, if_pos hm]
    exact ⟨hnd, hcl, hco, hsl⟩
  · have hget : ∀ k n, getNode (ensureNode g x) k = some n →
        (getNode g k = some n ∧ k ∈ keysOf g) ∨ (k = x ∧ n = ⟨x, [], []⟩) := by
      intro k n hk
      rw [getNode_ensureNode] at hk
      by_cases hkm : k ∈ keysOf g
      · rw [if_pos hkm] at hk
        exact Or.inl ⟨hk, hkm⟩
      · rw [if_neg hkm] at hk
        by_cases hke : k = x
        · rw [if_pos hke] at hk
          exact Or.inr ⟨hke, by injection hk.symm⟩
        · rw [if_neg hke] at hk
          exact absurd hk (by simp)
    refine ⟨nodup_keysOf_ensureNode hnd x, ?_, ?_, ?_⟩
    · intro k n hk
      rcases hget k n hk with ⟨hk1, _⟩ | ⟨_, hn⟩
      · obtain ⟨h1, h2⟩ := hcl k n hk1
        exact ⟨fun p hp => (mem_keysOf_ensureNode g x p).mpr (Or.inl (h1 p hp)),
          fun c hc => (mem_keysOf_ensureNode g x c).mpr (Or.inl (h2 c hc))⟩
      · subst hn
        exact ⟨by simp, by simp⟩
    · intro a b na nb ha hb
      rcases hget a na ha with ⟨ha1, _⟩ | ⟨hae, hna⟩
      · rcases hget b nb hb with ⟨hb1, _⟩ | ⟨hbe, hnb⟩
        · exact hco a b na nb ha1 hb1
        · subst hnb
          have hnp : b ∉ na.parents := fun hc => (hbe ▸ hm) ((hcl a na ha1).1 b hc)
          simp [hnp]
      · subst hna
        rcases hget b nb hb with ⟨hb1, _⟩ | ⟨hbe, hnb⟩
        · have hnc : a ∉ nb.children := fun hc => (hae ▸ hm) ((hcl b nb hb1).2 a hc)
          simp [hnc]
        · subst hnb
          simp
    · intro k n hk
      rcases hget k n hk with ⟨hk1, _⟩ | ⟨_, hn⟩
      · exact hsl k n hk1
      · subst hn
        exact ⟨List.nodup_nil, List.nodup_nil⟩

lemma buildWF_addParentEdge {g : NodeTable} (hwf : BuildWF g) {child par : String}
    (hc : child ∈ keysOf g) (hp : par ∈ keysOf g) :
    BuildWF (addParentEdge g child par) := by
  obtain ⟨hnd, hcl, hco, hsl⟩ := hwf
  have hkeys : keysOf (addParentEdge g child par) = keysOf g :=
    keysOf_addParentEdge g child par
  have hget : ∀ k n, getNode (addParentEdge g child par) k = some n →
      ∃ m, getNode g k = some m ∧
        n.parents = (if k = child then insertSet par m.parents else m.parents) ∧
        n.children = (if k = par then insertSet child m.children else m.children) := by
    intro k n hk
    rw [getNode_addParentEdge] at hk
    cases hg : getNode g k with
    | none => rw [hg] at hk; exact absurd hk (by simp)
    | some m =>
      rw [hg] at hk
      injection hk with hk
      subst hk
      exact ⟨m, rfl, rfl, rfl⟩
  refine ⟨hkeys ▸ hnd, ?_, ?_, ?_⟩
  · intro k n hk
    obtain ⟨m, hm, hpar, hch⟩ := hget k n hk
    obtain ⟨h1, h2⟩ := hcl k m hm
    rw [hkeys]
    constructor
    · intro q hq
      rw [hpar] at hq
      by_cases hkc : k = child
      · rw [if_pos hkc] at hq
        rcases mem_insertSet.mp hq with hq | hq
        · exact h1 q hq
        · exact hq ▸ hp
      · rw [if_neg hkc] at hq
        exact h1 q hq
    · intro q hq
      rw [hch] at hq
      by_cases hkp : k = par
      · rw [if_pos hkp] at hq
        rcases mem_insertSet.mp hq with hq | hq
        · exact h2 q hq
        · exact hq ▸ hc
      · rw [if_neg hkp] at hq
        exact h2 q hq
  · intro a b na nb ha hb
    obtain ⟨ma, hma, hpa, hca⟩ := hget a na ha
    obtain ⟨mb, hmb, hpb, hcb⟩ := hget b nb hb
    rw [hpa, hcb]
    have hbase := hco a b ma mb hma hmb
    by_cases hac : a = child
    · by_cases hbp : b = par
      · subst hac
        subst hbp
        rw [if_pos rfl, if_pos rfl]
        constructor
        · intro _
          exact mem_insertSet.mpr (Or.inr rfl)
        · intro _
          exact mem_insertSet.mpr (Or.inr rfl)
      · subst hac
        rw [if_pos rfl, if_neg hbp]
        rw [mem_insertSet]
        constructor
        · rintro (hq | hq)
          · exact hbase.mp hq
          · exact absurd hq hbp
        · intro hq
          exact Or.inl (hbase.mpr hq)
    · by_cases hbp : b = par
      · subst hbp
        rw [if_neg hac, if_pos rfl]
        rw [mem_insertSet]
        constructor
        · intro hq
          exact Or.inl (hbase.mp hq)
        · rintro (hq | hq)
          · exact hbase.mpr hq
          · exact absurd hq hac
      · rw [if_neg hac, if_neg hbp]
        exact hbase
  · intro k n hk
    obtain ⟨m, hm, hpar, hch⟩ := hget k n hk
    obtain ⟨h1, h2⟩ := hsl k m hm
    constructor
    · rw [hpar]
      by_cases hkc : k = child
      · rw [if_pos hkc]
        exact insertSet_nodup h1
      · rw [if_neg hkc]
        exact h1
    · rw [hch]
      by_cases hkp : k = par
      · rw [if_pos hkp]
        exact insertSet_nodup h2
      · rw [if_neg hkp]
        exact h2

lemma buildWF_processLines :
    ∀ (lines : List String) (h : String) (g : NodeTable) (st : List String)
      (g' : NodeTable) (st' : List String),
      BuildWF g → h ∈ keysOf g →
      processLines h lines g st = some (g', st') → BuildWF g' := by
  intro lines
  induction lines with
  | nil =>
    intro h g st g' st' hwf hm hpl
    simp only [processLines, Option.some.injEq, Prod.mk.injEq] at hpl
    obtain ⟨h1, _⟩ := hpl
    subst h1
    exact hwf
  | cons line rest ih =>
    intro h g st g' st' hwf hm hpl
    simp only [processLines] at hpl
    by_cases hsw : strStartsWith line "parent" = true
    · rw [if_pos hsw] at hpl
      cases hget : (pySplit line).get? 1 with
      | none => rw [hget] at hpl; exact absurd hpl (by simp)
      | some ph =>
        rw [hget] at hpl
        simp only at hpl
        have hwf1 : BuildWF (addParentEdge (ensureNode g ph) h ph) :=
          buildWF_addParentEdge (buildWF_ensureNode hwf ph)
            ((mem_keysOf_ensureNode g ph h).mpr (Or.inl hm))
            ((mem_keysOf_ensureNode g ph ph).mpr (Or.inr rfl))
        have hm1 : h ∈ keysOf (addParentEdge (ensureNode g ph) h ph) := by
          rw [keysOf_addParentEdge]
          exact (mem_keysOf_ensureNode g ph h).mpr (Or.inl hm)
        exact ih h _ (ph :: st) g' st' hwf1 hm1 hpl
    · rw [if_neg hsw] at hpl
      by_cases hbl : line = ""
      · rw [if_pos hbl] at hpl
        simp only [Option.some.injEq, Prod.mk.injEq] at hpl
        obtain ⟨h1, _⟩ := hpl
        subst h1
        exact hwf
      · rw [if_neg hbl] at hpl
        exact ih h g st g' st' hwf hm hpl

lemma buildWF_buildLoop (store : ObjStore) :
    ∀ (fuel : Nat) (st visited : List String) (g gf : NodeTable),
      BuildWF g → buildLoop store fuel st visited g = some gf → BuildWF gf := by
  intro fuel
  induction fuel with
  | zero =>
    intro st visited g gf hwf hb
    cases st with
    | nil =>
      simp only [buildLoop, Option.some.injEq] at hb
      subst hb
      exact hwf
    | cons h' st' => exact absurd hb (by simp [buildLoop])
  | succ fuel ih =>
    intro st visited g gf hwf hb
    cases st with
    | nil =>
      simp only [buildLoop, Option.some.injEq] at hb
      subst hb
      exact hwf
    | cons h' st' =>
      simp only [buildLoop] at hb
      by_cases hv : h' ∈ visited
      · rw [if_pos hv] at hb
        exact ih st' visited g gf hwf hb
      · rw [if_neg hv] at hb
        cases hd : decompress_git_object store h' with
        | none => rw [hd] at hb; exact absurd hb (by simp)
        | some lines =>
          rw [hd] at hb
          simp only at hb
          cases hpl : processLines h' lines (ensureNode g h') st' with
          | none => rw [hpl] at hb; exact absurd hb (by simp)
          | some p =>
            obtain ⟨g2, st2⟩ := p
            rw [hpl] at hb
            simp only at hb
            have hwf2 : BuildWF g2 :=
              buildWF_processLines lines h' (ensureNode g h') st' g2 st2
                (buildWF_ensureNode hwf h')
                ((mem_keysOf_ensureNode g h' h').mpr (Or.inr rfl)) hpl
            exact ih st2 (h' :: visited) g2 gf hwf2 hb

lemma buildWF_build {store : ObjStore} {fuel : Nat}
    {branches : List (String × String)} {g : NodeTable}
    (hb : build_commit_graph store fuel branches = some g) : BuildWF g :=
  buildWF_buildLoop store fuel (branches.map Prod.snd).reverse [] [] g buildWF_nil hb

/-- C9: in every table the builder returns, `B ∈ A.parents ⟺ A ∈ B.children`
for all stored nodes, and a single `addParentEdge` (the builder's only edge
operation, source lines 119-120) establishes both directions together. -/
theorem C9_bidirectional_consistency :
    (∀ (store : ObjStore) (fuel : Nat) (branches : List (String × String))
      (g : NodeTable), build_commit_graph store fuel branches = some g →
      ∀ (a b : String) (na nb : CommitNode), getNode g a = some na →
        getNode g b = some nb → (b ∈ na.parents ↔ a ∈ nb.children)) ∧
    (∀ (g : NodeTable) (child par : String), child ∈ keysOf g → par ∈ keysOf g →
      ∃ nc np, getNode (addParentEdge g child par) child = some nc ∧
        par ∈ nc.parents ∧
        getNode (addParentEdge g child par) par = some np ∧ child ∈ np.children) := by
  constructor
  · intro store fuel branches g hb a b na nb ha hbn
    exact (buildWF_build hb).2.2.1 a b na nb ha hbn
  · intro g child par hc hp
    obtain ⟨mc, hmc⟩ := getNode_isSome hc
    obtain ⟨mp, hmp⟩ := getNode_isSome hp
    refine ⟨⟨mc.commit_hash, insertSet par mc.parents,
        if child = par then insertSet child mc.children else mc.children⟩,
      ⟨mp.commit_hash, if par = child then insertSet par mp.parents else mp.parents,
        insertSet child mp.children⟩, ?_, ?_, ?_, ?_⟩
    · rw [getNode_addParentEdge, hmc]
      simp
    · exact mem_insertSet.mpr (Or.inr rfl)
    · rw [getNode_addParentEdge, hmp]
      simp
    · exact mem_insertSet.mpr (Or.inr rfl)

/-- C9 witness: the iff instantiated on a concrete two-commit build. -/
theorem C9_witness :
    "b" ∈ (⟨"a", ["b"], []⟩ : CommitNode).parents ↔
      "a" ∈ (⟨"b", [], ["a"]⟩ : CommitNode).children :=
  C9_bidirectional_consistency.1
    (fun k => if k = "a" then some (some "parent b") else none) 3 [("main", "a")]
    [("a", ⟨"a", ["b"], []⟩), ("b", ⟨"b", [], ["a"]⟩)] (by decide)
    "a" "b" ⟨"a", ["b"], []⟩ ⟨"b", [], ["a"]⟩ (by decide) (by decide)

/-! ### The Kahn loop: `processChildren` characterization -/

lemma processChildren_spec :
    ∀ (cs : List String) (deg : String → Option Int) (queue : List String),
      cs.Nodup → (∀ c ∈ cs, ∃ v, deg c = some v) →
      ∃ deg' queue',
        processChildren deg cs queue = some (deg', queue') ∧
        (∀ k, deg' k = if k ∈ cs then (deg k).map (fun v => v - 1) else deg k) ∧
        queue'.Perm (queue ++ cs.filter (fun c => decide (deg c = some 1))) ∧
        (SortedLe queue → SortedLe queue') := by
  intro cs
  induction cs with
  | nil =>
    intro deg queue _ _
    refine ⟨deg, queue, rfl, by simp, by simp, fun hs => hs⟩
  | cons c cs ih =>
    intro deg queue hnd hsome
    obtain ⟨v, hv⟩ := hsome c (List.mem_cons_self ..)
    have hne : c ∉ cs := (List.nodup_cons.mp hnd).1
    set deg1 : String → Option Int := fun k => if k = c then some (v - 1) else deg k with hdeg1
    set queue1 : List String :=
      if v - 1 = 0 then sortStrings (queue ++ [c]) else queue with hqueue1
    have hsome1 : ∀ c' ∈ cs, ∃ v', deg1 c' = some v' := by
      intro c' hc'
      have : c' ≠ c := fun he => hne (he ▸ hc')
      rw [hdeg1]
      simp only [if_neg this]
      exact hsome c' (List.mem_cons_of_mem _ hc')
    obtain ⟨deg2, queue2, hrun, hchar, hperm, hsort⟩ :=
      ih deg1 queue1 (List.nodup_cons.mp hnd).2 hsome1
    have hfcongr : cs.filter (fun c' => decide (deg1 c' = some 1)) =
        cs.filter (fun c' => decide (deg c' = some 1)) := by
      apply List.filter_congr
      intro x hx
      have : x ≠ c := fun he => hne (he ▸ hx)
      rw [hdeg1]
      simp [if_neg this]
    refine ⟨deg2, queue2, ?_, ?_, ?_, ?_⟩
    · simp only [processChildren, hv]
      exact hrun
    · intro k
      by_cases hk : k = c
      · subst hk
        rw [hchar k]
        simp only [if_neg hne, hdeg1, if_pos rfl, List.mem_cons, true_or, if_pos, hv]
        rfl
      · rw [hchar k]
        by_cases hkc : k ∈ cs
        · simp only [if_pos hkc, List.mem_cons, hkc, or_true, if_pos]
          rw [hdeg1]
          simp [if_neg hk]
        · have : k ∉ c :: cs := by simp [hk, hkc]
          simp only [if_neg hkc, if_neg this]
          rw [hdeg1]
          simp [if_neg hk]
    · rw [hfcongr] at hperm
      by_cases hz : v - 1 = 0
      · have hv1 : decide (deg c = some 1) = true := by
          rw [hv]
          simp only [Option.some.injEq, decide_eq_true_eq]
          omega
        rw [List.filter_cons, hv1, if_pos rfl]
        have h1 : queue1 = sortStrings (queue ++ [c]) := by rw [hqueue1, if_pos hz]
        rw [h1] at hperm
        have p1 : (sortStrings (queue ++ [c]) ++
            cs.filter (fun c' => decide (deg c' = some 1))).Perm
            (queue ++ c :: cs.filter (fun c' => decide (deg c' = some 1))) := by
          have p0 := List.Perm.append_right
            (cs.filter (fun c' => decide (deg c' = some 1)))
            (sortStrings_perm (queue ++ [c]))
          simpa using p0
        exact hperm.trans p1
      · have hv1 : decide (deg c = some 1) = false := by
          rw [hv]
          simp only [Option.some.injEq, decide_eq_false_iff_not]
          omega
        rw [List.filter_cons, hv1, if_neg (by simp)]
        have h1 : queue1 = queue := by rw [hqueue1, if_neg hz]
        rw [h1] at hperm
        exact hperm
    · intro hs
      apply hsort
      rw [hqueue1]
      by_cases hz : v - 1 = 0
      · rw [if_pos hz]
        exact sortedLe_sortStrings _
      · rw [if_neg hz]
        exact hs

lemma sortLoop_total (t : NodeTable) (hcl : ClosedG t) (hsl : SetG t) :
    ∀ (fuel : Nat) (deg : String → Option Int) (queue res : List String),
      (∀ x ∈ queue, x ∈ keysOf t) →
      (∀ k, k ∈ keysOf t → ∃ v, deg k = some v) →
      (∀ x ∈ res, x ∈ keysOf t) →
      ∃ out, sortLoop t fuel deg queue res = some out ∧ ∀ x ∈ out, x ∈ keysOf t := by
  intro fuel
  induction fuel with
  | zero =>
    intro deg queue res hq hdeg hres
    cases queue with
    | nil => exact ⟨res, rfl, hres⟩
    | cons cur rest => exact ⟨res, rfl, hres⟩
  | succ fuel ih =>
    intro deg queue res hq hdeg hres
    cases queue with
    | nil => exact ⟨res, rfl, hres⟩
    | cons cur rest =>
      have hcur : cur ∈ keysOf t := hq cur (List.mem_cons_self ..)
      obtain ⟨node, hnode⟩ := getNode_isSome hcur
      have hchn : (sortStrings node.children).Nodup :=
        sortStrings_nodup (hsl cur node hnode).2
      have hchk : ∀ c ∈ sortStrings node.children, c ∈ keysOf t := by
        intro c hc
        exact (hcl cur node hnode).2 c (mem_sortStrings.mp hc)
      obtain ⟨deg', queue', hrun, hchar, hperm, _⟩ :=
        processChildren_spec (sortStrings node.children) deg rest hchn
          (fun c hc => hdeg c (hchk c hc))
      have hq' : ∀ x ∈ queue', x ∈ keysOf t := by
        intro x hx
        rcases List.mem_append.mp (hperm.mem_iff.mp hx) with hx | hx
        · exact hq x (List.mem_cons_of_mem _ hx)
        · exact hchk x (List.mem_of_mem_filter hx)
      have hdeg' : ∀ k, k ∈ keysOf t → ∃ v, deg' k = some v := by
        intro k hk
        obtain ⟨v, hv⟩ := hdeg k hk
        rw [hchar k]
        by_cases hm : k ∈ sortStrings node.children
        · exact ⟨v - 1, by rw [if_pos hm, hv]; rfl⟩
        · exact ⟨v, by rw [if_neg hm]; exact hv⟩
      have hres' : ∀ x ∈ res ++ [cur], x ∈ keysOf t := by
        intro x hx
        rcases List.mem_append.mp hx with hx | hx
        · exact hres x hx
        · rw [List.mem_singleton.mp hx]
          exact hcur
      obtain ⟨out, hout, houtk⟩ := ih deg' queue' (res ++ [cur]) hq' hdeg' hres'
      refine ⟨out, ?_, houtk⟩
      simp only [sortLoop, hnode, hrun]
      exact hout

lemma initQueue_keys (t : NodeTable) : ∀ x ∈ initQueue t, x ∈ keysOf t := by
  intro x hx
  rw [initQueue] at hx
  have hx1 := mem_sortStrings.mp hx
  obtain ⟨e, he, hee⟩ := List.mem_map.mp hx1
  obtain ⟨he2, _⟩ := List.mem_filter.mp he
  obtain ⟨e3, he3, he4⟩ := List.mem_map.mp he2
  rw [← hee, ← he4]
  exact List.mem_map_of_mem Prod.fst he3

lemma initInDegree_keys (t : NodeTable) :
    ∀ k, k ∈ keysOf t → ∃ v, initInDegree t k = some v := by
  intro k hk
  obtain ⟨n, hn⟩ := getNode_isSome hk
  exact ⟨n.parents.length, by rw [initInDegree, hn]; rfl⟩

lemma topo_sort_total (t : NodeTable) (hcl : ClosedG t) (hsl : SetG t) :
    ∃ out, topo_sort t = some out ∧ ∀ x ∈ out, x ∈ keysOf t := by
  obtain ⟨out, hout, houtk⟩ :=
    sortLoop_total t hcl hsl t.length (initInDegree t) (initQueue t) []
      (initQueue_keys t) (initInDegree_keys t) (by simp)
  refine ⟨out.reverse, ?_, ?_⟩
  · rw [topo_sort, hout]
    rfl
  · intro x hx
    exact houtk x (List.mem_reverse.mp hx)

lemma annotLoop_total (t : NodeTable) (names : String → List String) :
    ∀ (order : List String) (prev : Option String),
      (∀ x ∈ order, x ∈ keysOf t) → (∀ p, prev = some p → p ∈ keysOf t) →
      ∃ ls, annotLoop t names prev order = some ls := by
  intro order
  induction order with
  | nil => exact fun prev _ _ => ⟨[], rfl⟩
  | cons h rest ih =>
    intro prev hord hprev
    have hh : h ∈ keysOf t := hord h (List.mem_cons_self ..)
    obtain ⟨node, hnode⟩ := getNode_isSome hh
    obtain ⟨ls, hls⟩ := ih (some h)
      (fun x hx => hord x (List.mem_cons_of_mem _ hx))
      (fun p hp => by injection hp with hp; exact hp ▸ hh)
    cases prev with
    | none =>
      refine ⟨commitLine names h :: ls, ?_⟩
      simp only [annotLoop, hnode, hls]
      rfl
    | some p =>
      by_cases hpc : p ∈ node.children
      · refine ⟨commitLine names h :: ls, ?_⟩
        simp only [annotLoop, hnode, if_pos hpc, hls]
        rfl
      · obtain ⟨pnode, hpnode⟩ := getNode_isSome (hprev p rfl)
        refine ⟨[closingLine pnode.parents, "", openingLine node.children] ++
          commitLine names h :: ls, ?_⟩
        simp only [annotLoop, hnode, if_neg hpc, hpnode, hls]
        rfl

/-- C10: every table the builder returns is closed — all identifiers in any
parents or children set are keys — and consequently the sorter runs without
a single failing lookup (it returns a result), and the annotator's lookups
on the sorted sequence all succeed, for any branch-name map. -/
theorem C10_closed_graph :
    ∀ (store : ObjStore) (fuel : Nat) (branches : List (String × String))
      (g : NodeTable), build_commit_graph store fuel branches = some g →
      ClosedTable g ∧
      ∃ out, topo_sort g = some out ∧
        ∀ names, ∃ ls, print_topo_ordered_commits g out names = some ls := by
  intro store fuel branches g hb
  obtain ⟨hnd, hcl, hco, hsl⟩ := buildWF_build hb
  obtain ⟨out, hout, houtk⟩ := topo_sort_total g hcl hsl
  refine ⟨closedTable_of_closedG hnd hcl, out, hout, ?_⟩
  intro names
  obtain ⟨ls, hls⟩ := annotLoop_total g names out none houtk (by simp)
  exact ⟨ls, hls⟩

/-- C10 witness: a concrete three-node build; the sorter and annotator both
succeed on the returned table. -/
theorem C10_witness :
    ClosedTable [("c", ⟨"c", ["a", "b"], []⟩), ("a", ⟨"a", [], ["c"]⟩),
        ("b", ⟨"b", [], ["c"]⟩)] ∧
      ∃ out, topo_sort [("c", ⟨"c", ["a", "b"], []⟩), ("a", ⟨"a", [], ["c"]⟩),
          ("b", ⟨"b", [], ["c"]⟩)] = some out ∧
        ∀ names, ∃ ls, print_topo_ordered_commits
          [("c", ⟨"c", ["a", "b"], []⟩), ("a", ⟨"a", [], ["c"]⟩),
            ("b", ⟨"b", [], ["c"]⟩)] out names = some ls :=
  C10_closed_graph
    (fun k => if k = "c" then some (some "parent a\nparent b") else none) 4
    [("main", "c")]
    [("c", ⟨"c", ["a", "b"], []⟩), ("a", ⟨"a", [], ["c"]⟩), ("b", ⟨"b", [], ["c"]⟩)]
    (by decide)

/-! ### C8: the annotator emits spec-shaped blocks -/

lemma collectBlocks_cons_some {α β : Type} {f : α → Option β} {a : α} {b : β}
    (hf : f a = some b) (as : List α) :
    collectBlocks f (a :: as) = (collectBlocks f as).map (fun bs => b :: bs) := by
  simp only [collectBlocks, hf]
  cases collectBlocks f as <;> rfl

lemma collectBlocks_cons_none {α β : Type} {f : α → Option β} {a : α}
    (hf : f a = none) (as : List α) :
    collectBlocks f (a :: as) = none := by
  simp only [collectBlocks, hf]

lemma annotLoop_eq_blocks (t : NodeTable) (names : String → List String) :
    ∀ (order : List String) (prev : Option String),
      annotLoop t names prev order =
        (collectBlocks (fun e => annotBlockSpec t names e.2 e.1)
          (order.zip (prev :: order.map some))).map List.flatten := by
  intro order
  induction order with
  | nil => intro prev; rfl
  | cons h rest ih =>
    intro prev
    have hrec := ih (some h)
    simp only [List.map_cons, List.zip_cons_cons]
    cases hnode : getNode t h with
    | none =>
      have hb : annotBlockSpec t names prev h = none := by
        simp [annotBlockSpec, hnode]
      rw [@collectBlocks_cons_none (String × Option String) (List String)
        (fun e => annotBlockSpec t names e.2 e.1) (h, prev) hb]
      simp [annotLoop, hnode]
    | some node =>
      cases prev with
      | none =>
        have hb : annotBlockSpec t names none h = some [commitLine names h] := by
          simp [annotBlockSpec, hnode]
        rw [@collectBlocks_cons_some (String × Option String) (List String)
          (fun e => annotBlockSpec t names e.2 e.1) (h, none) _ hb]
        simp only [annotLoop, hnode, hrec]
        cases hm : collectBlocks (fun e => annotBlockSpec t names e.2 e.1)
            (rest.zip (some h :: rest.map some)) with
        | none => simp [hm]
        | some bs => simp [hm]
      | some p =>
        by_cases hpc : p ∈ node.children
        · have hb : annotBlockSpec t names (some p) h = some [commitLine names h] := by
            simp [annotBlockSpec, hnode, hpc]
          rw [@collectBlocks_cons_some (String × Option String) (List String)
            (fun e => annotBlockSpec t names e.2 e.1) (h, some p) _ hb]
          simp only [annotLoop, hnode, if_pos hpc, hrec]
          cases hm : collectBlocks (fun e => annotBlockSpec t names e.2 e.1)
              (rest.zip (some h :: rest.map some)) with
          | none => simp [hm]
          | some bs => simp [hm]
        · cases hpn : getNode t p with
          | none =>
            have hb : annotBlockSpec t names (some p) h = none := by
              simp [annotBlockSpec, hnode, hpc, hpn]
            rw [@collectBlocks_cons_none (String × Option String) (List String)
              (fun e => annotBlockSpec t names e.2 e.1) (h, some p) hb]
            simp [annotLoop, hnode, if_neg hpc, hpn]
          | some pnode =>
            have hb : annotBlockSpec t names (some p) h =
                some [closingLine pnode.parents, "", openingLine node.children,
                  commitLine names h] := by
              simp [annotBlockSpec, hnode, hpc, hpn]
            rw [@collectBlocks_cons_some (String × Option String) (List String)
              (fun e => annotBlockSpec t names e.2 e.1) (h, some p) _ hb]
            simp only [annotLoop, hnode, if_neg hpc, hpn, hrec]
            cases hm : collectBlocks (fun e => annotBlockSpec t names e.2 e.1)
                (rest.zip (some h :: rest.map some)) with
            | none => simp [hm]
            | some bs => simp [hm]

/-- C8: the annotator's stateful loop produces exactly the spec's
per-element blocks: before each current node a boundary block — a closing
marker listing the previous node's parents in ascending order (bare marker
if none), one blank line, and an opening marker listing the current node's
children in ascending order (bare marker if none) — appears exactly when a
previous node exists and is not a member of the current node's children
set, and the current node's own line always follows (`annotBlockSpec`
transcribes §4.4 of the spec; the theorem says the program equals it). -/
theorem C8_boundary_blocks (t : NodeTable) (order : List String)
    (names : String → List String) :
    print_topo_ordered_commits t order names = annotSpec t names order :=
  annotLoop_eq_blocks t names order none

/-! ### C5: the tie-break discipline of the Kahn loop -/

lemma charsLe_refl : ∀ l : List Char, charsLe l l = true := by
  intro l
  induction l with
  | nil => rfl
  | cons a as ih => simp [charsLe, ih]

lemma strLe_refl (a : String) : strLe a a := charsLe_refl a.data

lemma sortLoop_res_front (t : NodeTable) :
    ∀ (fuel : Nat) (deg : String → Option Int) (queue res out : List String),
      sortLoop t fuel deg queue res = some out → ∃ tail, out = res ++ tail := by
  intro fuel
  induction fuel with
  | zero =>
    intro deg queue res out hrun
    cases queue with
    | nil =>
      simp only [sortLoop, Option.some.injEq] at hrun
      exact ⟨[], by simp [hrun]⟩
    | cons q qs =>
      simp only [sortLoop, Option.some.injEq] at hrun
      exact ⟨[], by simp [hrun]⟩
  | succ fuel ih =>
    intro deg queue res out hrun
    cases queue with
    | nil =>
      simp only [sortLoop, Option.some.injEq] at hrun
      exact ⟨[], by simp [hrun]⟩
    | cons q qs =>
      simp only [sortLoop] at hrun
      cases hnode : getNode t q with
      | none => rw [hnode] at hrun; exact absurd hrun (by simp)
      | some node =>
        rw [hnode] at hrun
        simp only at hrun
        cases hpc : processChildren deg (sortStrings node.children) qs with
        | none => rw [hpc] at hrun; exact absurd hrun (by simp)
        | some p =>
          obtain ⟨deg', queue'⟩ := p
          rw [hpc] at hrun
          simp only at hrun
          obtain ⟨tail, htail⟩ := ih deg' queue' (res ++ [q]) out hrun
          exact ⟨q :: tail, by simp [htail]⟩

/-- C5: the ready collection starts sorted ascending, every queue update of
the Kahn loop keeps it sorted, and whenever the loop runs on a sorted
nonempty ready collection the identifier it removes and emits next — the
queue's front — is `≤` every simultaneously ready identifier (it is the
lexicographically smallest ready one). -/
theorem C5_tie_break :
    (∀ t : NodeTable, SortedLe (initQueue t)) ∧
    (∀ (deg : String → Option Int) (cs queue : List String)
      (deg' : String → Option Int) (queue' : List String),
      processChildren deg cs queue = some (deg', queue') →
      SortedLe queue → SortedLe queue') ∧
    (∀ (t : NodeTable) (fuel : Nat) (deg : String → Option Int)
      (q : String) (qs res out : List String),
      SortedLe (q :: qs) → sortLoop t (fuel + 1) deg (q :: qs) res = some out →
      (∀ x ∈ q :: qs, strLe q x) ∧ out.take (res.length + 1) = res ++ [q]) := by
  refine ⟨fun t => sortedLe_sortStrings _, ?_, ?_⟩
  · intro deg cs
    induction cs generalizing deg with
    | nil =>
      intro queue deg' queue' hrun hs
      simp only [processChildren, Option.some.injEq, Prod.mk.injEq] at hrun
      rw [← hrun.2]
      exact hs
    | cons c cs ih =>
      intro queue deg' queue' hrun hs
      simp only [processChildren] at hrun
      cases hv : deg c with
      | none => rw [hv] at hrun; exact absurd hrun (by simp)
      | some v =>
        rw [hv] at hrun
        simp only at hrun
        by_cases hz : v - 1 = 0
        · rw [if_pos hz] at hrun
          exact ih _ _ _ _ hrun (sortedLe_sortStrings _)
        · rw [if_neg hz] at hrun
          exact ih _ _ _ _ hrun hs
  · intro t fuel deg q qs res out hs hrun
    constructor
    · intro x hx
      rcases List.mem_cons.mp hx with hx | hx
      · exact hx ▸ strLe_refl q
      · exact (List.pairwise_cons.mp hs).1 x hx
    · simp only [sortLoop] at hrun
      cases hnode : getNode t q with
      | none => rw [hnode] at hrun; exact absurd hrun (by simp)
      | some node =>
        rw [hnode] at hrun
        simp only at hrun
        cases hpc : processChildren deg (sortStrings node.children) qs with
        | none => rw [hpc] at hrun; exact absurd hrun (by simp)
        | some p =>
          obtain ⟨deg', queue'⟩ := p
          rw [hpc] at hrun
          simp only at hrun
          obtain ⟨tail, htail⟩ := sortLoop_res_front t fuel deg' queue' (res ++ [q]) out hrun
          rw [htail, List.append_assoc]
          have hlen : res.length + 1 = (res ++ [q]).length := by simp
          rw [List.append_assoc] at htail
          calc (res ++ ([q] ++ tail)).take (res.length + 1) =
              (res ++ ([q] ++ tail)).take ((res ++ [q]).length) := by rw [hlen]
            _ = ((res ++ [q]) ++ tail).take ((res ++ [q]).length) := by
                rw [List.append_assoc]
            _ = res ++ [q] := List.take_left _ _

/-- C5 witness: a two-key table with ready queue `[a, b]`; the loop removes
`a`, the smallest ready identifier, first. -/
theorem C5_witness :
    (∀ x ∈ (["a", "b"] : List String), strLe "a" x) ∧
      (["a"] : List String).take (([] : List String).length + 1) =
        ([] : List String) ++ ["a"] :=
  C5_tie_break.2.2 [("a", ⟨"a", [], []⟩), ("b", ⟨"b", [], []⟩)] 0
    (initInDegree [("a", ⟨"a", [], []⟩), ("b", ⟨"b", [], []⟩)])
    "a" ["b"] [] ["a"] (by decide) (by decide)

/-! ### C4: the sort depends only on the table's mathematical content -/

lemma forall₂_keysOf {t₁ t' : NodeTable}
    (h : List.Forall₂ (fun a b => a.1 = b.1 ∧ NodeEquiv a.2 b.2) t₁ t') :
    keysOf t₁ = keysOf t' := by
  induction h with
  | nil => rfl
  | cons hab _ ih => simp [keysOf] at ih ⊢; exact ⟨hab.1, ih⟩

lemma forall₂_getNode {t₁ t' : NodeTable}
    (h : List.Forall₂ (fun a b => a.1 = b.1 ∧ NodeEquiv a.2 b.2) t₁ t') (k : String) :
    (getNode t₁ k = none ∧ getNode t' k = none) ∨
      ∃ n₁ n₂, getNode t₁ k = some n₁ ∧ getNode t' k = some n₂ ∧ NodeEquiv n₁ n₂ := by
  induction h with
  | nil => exact Or.inl ⟨rfl, rfl⟩
  | cons hab htail ih =>
    rename_i a b l₁ l₂
    obtain ⟨hk, hn⟩ := hab
    by_cases hka : k = a.1
    · refine Or.inr ⟨a.2, b.2, ?_, ?_, hn⟩
      · obtain ⟨a1, a2⟩ := a
        simp [getNode, hka]
      · obtain ⟨b1, b2⟩ := b
        simp only at hk
        simp [getNode, hka, hk]
    · rcases ih with ⟨h1, h2⟩ | ⟨n₁, n₂, h1, h2, hnn⟩
      · refine Or.inl ⟨?_, ?_⟩
        · obtain ⟨a1, a2⟩ := a
          simp [getNode, hka, h1]
        · obtain ⟨b1, b2⟩ := b
          simp only at hk
          simp [getNode, hka, hk ▸ hka, h1, h2]
      · refine Or.inr ⟨n₁, n₂, ?_, ?_, hnn⟩
        · obtain ⟨a1, a2⟩ := a
          simp [getNode, hka, h1]
        · obtain ⟨b1, b2⟩ := b
          simp only at hk
          simp [getNode, hka, hk ▸ hka, h1, h2]

lemma getNode_perm :
    ∀ {t' t₂ : NodeTable}, t'.Perm t₂ → (keysOf t').Nodup →
      ∀ k, getNode t' k = getNode t₂ k := by
  intro t' t₂ hpm
  induction hpm with
  | nil => intro _ k; rfl
  | cons x _ ih =>
    intro hnd k
    obtain ⟨x1, x2⟩ := x
    simp only [keysOf, List.map_cons, List.nodup_cons] at hnd
    by_cases hk : k = x1
    · simp [getNode, hk]
    · simp only [getNode, if_neg hk]
      exact ih hnd.2 k
  | swap x y l =>
    intro hnd k
    obtain ⟨x1, x2⟩ := x
    obtain ⟨y1, y2⟩ := y
    simp only [keysOf, List.map_cons, List.nodup_cons, List.mem_cons] at hnd
    have hxy : y1 ≠ x1 := fun he => hnd.1 (Or.inl he)
    by_cases hkx : k = x1
    · subst hkx
      simp [getNode, Ne.symm hxy]
    · by_cases hky : k = y1
      · subst hky
        simp [getNode, hxy]
      · simp [getNode, hkx, hky]
  | trans h12 _ ih1 ih2 =>
    intro hnd k
    rw [ih1 hnd k]
    apply ih2 _ k
    have : (keysOf _).Perm (keysOf _) := h12.map Prod.fst
    exact this.nodup_iff.mp hnd

lemma tableEquiv_getNode {t₁ t₂ : NodeTable} (hnd : (keysOf t₁).Nodup)
    (h : TableEquiv t₁ t₂) (k : String) :
    (getNode t₁ k = none ∧ getNode t₂ k = none) ∨
      ∃ n₁ n₂, getNode t₁ k = some n₁ ∧ getNode t₂ k = some n₂ ∧ NodeEquiv n₁ n₂ := by
  obtain ⟨t', hf, hp⟩ := h
  have hnd' : (keysOf t').Nodup := forall₂_keysOf hf ▸ hnd
  have hpk := getNode_perm hp hnd' k
  rcases forall₂_getNode hf k with ⟨h1, h2⟩ | ⟨n₁, n₂, h1, h2, hnn⟩
  · exact Or.inl ⟨h1, hpk ▸ h2⟩
  · exact Or.inr ⟨n₁, n₂, h1, hpk ▸ h2, hnn⟩

lemma forall₂_degreeItems {t₁ t' : NodeTable}
    (h : List.Forall₂ (fun a b => a.1 = b.1 ∧ NodeEquiv a.2 b.2) t₁ t') :
    degreeItems t₁ = degreeItems t' := by
  induction h with
  | nil => rfl
  | cons hab _ ih =>
    simp only [degreeItems, List.map_cons] at ih ⊢
    rw [ih, hab.1, hab.2.2.1.length_eq]

lemma tableEquiv_initQueue {t₁ t₂ : NodeTable} (h : TableEquiv t₁ t₂) :
    initQueue t₁ = initQueue t₂ := by
  obtain ⟨t', hf, hp⟩ := h
  rw [initQueue, initQueue, forall₂_degreeItems hf]
  apply sortStrings_eq_of_perm
  exact ((hp.map (fun e => (e.1, (e.2.parents.length : Int)))).filter
    (fun e => decide (e.2 = 0))).map Prod.fst

lemma tableEquiv_initInDegree {t₁ t₂ : NodeTable} (hnd : (keysOf t₁).Nodup)
    (h : TableEquiv t₁ t₂) : ∀ k, initInDegree t₁ k = initInDegree t₂ k := by
  intro k
  rcases tableEquiv_getNode hnd h k with ⟨h1, h2⟩ | ⟨n₁, n₂, h1, h2, hnn⟩
  · rw [initInDegree, initInDegree, h1, h2]
  · rw [initInDegree, initInDegree, h1, h2]
    simp only [Option.map_some']
    rw [hnn.2.1.length_eq]

lemma processChildren_congr :
    ∀ (cs : List String) (deg₁ deg₂ : String → Option Int) (queue : List String),
      (∀ k, deg₁ k = deg₂ k) →
      (processChildren deg₁ cs queue = none ∧ processChildren deg₂ cs queue = none) ∨
      ∃ d₁ d₂ q', processChildren deg₁ cs queue = some (d₁, q') ∧
        processChildren deg₂ cs queue = some (d₂, q') ∧ ∀ k, d₁ k = d₂ k := by
  intro cs
  induction cs with
  | nil =>
    intro deg₁ deg₂ queue hpt
    exact Or.inr ⟨deg₁, deg₂, queue, rfl, rfl, hpt⟩
  | cons c cs ih =>
    intro deg₁ deg₂ queue hpt
    cases hv : deg₁ c with
    | none =>
      have hv2 : deg₂ c = none := (hpt c) ▸ hv
      exact Or.inl ⟨by simp [processChildren, hv], by simp [processChildren, hv2]⟩
    | some v =>
      have hv2 : deg₂ c = some v := (hpt c) ▸ hv
      have hpt' : ∀ k, (fun k => if k = c then some (v - 1) else deg₁ k) k =
          (fun k => if k = c then some (v - 1) else deg₂ k) k := by
        intro k
        by_cases hk : k = c <;> simp [hk, hpt k]
      rcases ih (fun k => if k = c then some (v - 1) else deg₁ k)
          (fun k => if k = c then some (v - 1) else deg₂ k)
          (if v - 1 = 0 then sortStrings (queue ++ [c]) else queue) hpt' with
        ⟨h1, h2⟩ | ⟨d₁, d₂, q', h1, h2, hd⟩
      · refine Or.inl ⟨?_, ?_⟩
        · simp only [processChildren, hv]
          exact h1
        · simp only [processChildren, hv2]
          exact h2
      · refine Or.inr ⟨d₁, d₂, q', ?_, ?_, hd⟩
        · simp only [processChildren, hv]
          exact h1
        · simp only [processChildren, hv2]
          exact h2

lemma sortLoop_congr {t₁ t₂ : NodeTable}
    (hgn : ∀ k, (getNode t₁ k = none ∧ getNode t₂ k = none) ∨
      ∃ n₁ n₂, getNode t₁ k = some n₁ ∧ getNode t₂ k = some n₂ ∧ NodeEquiv n₁ n₂) :
    ∀ (fuel : Nat) (deg₁ deg₂ : String → Option Int) (queue res : List String),
      (∀ k, deg₁ k = deg₂ k) →
      sortLoop t₁ fuel deg₁ queue res = sortLoop t₂ fuel deg₂ queue res := by
  intro fuel
  induction fuel with
  | zero =>
    intro deg₁ deg₂ queue res hpt
    cases queue <;> rfl
  | succ fuel ih =>
    intro deg₁ deg₂ queue res hpt
    cases queue with
    | nil => rfl
    | cons cur rest =>
      rcases hgn cur with ⟨h1, h2⟩ | ⟨n₁, n₂, h1, h2, hnn⟩
      · simp [sortLoop, h1, h2]
      · have hcs : sortStrings n₁.children = sortStrings n₂.children :=
          sortStrings_eq_of_perm hnn.2.2
        rcases processChildren_congr (sortStrings n₁.children) deg₁ deg₂ rest hpt with
          ⟨hp1, hp2⟩ | ⟨d₁, d₂, q', hp1, hp2, hd⟩
        · rw [hcs] at hp2
          simp [sortLoop, h1, h2, hp1, hp2]
        · rw [hcs] at hp2
          simp only [sortLoop, h1, h2, hp1, hp2]
          exact ih d₁ d₂ q' (res ++ [cur]) hd

lemma tableEquiv_length {t₁ t₂ : NodeTable} (h : TableEquiv t₁ t₂) :
    t₁.length = t₂.length := by
  obtain ⟨t', hf, hp⟩ := h
  rw [hf.length_eq, hp.length_eq]

/-- C4: `topo_sort` is a function of the table's mathematical content only:
permuting the table's entry order and the iteration order of every node's
parents and children sets (the Python `dict`/`set` iteration orders) leaves
the output sequence — including the error outcome — identical. -/
theorem C4_deterministic (t₁ t₂ : NodeTable) (hnd : (keysOf t₁).Nodup)
    (h : TableEquiv t₁ t₂) : topo_sort t₁ = topo_sort t₂ := by
  rw [topo_sort, topo_sort, tableEquiv_length h, tableEquiv_initQueue h]
  rw [sortLoop_congr (tableEquiv_getNode hnd h) t₂.length
    (initInDegree t₁) (initInDegree t₂) (initQueue t₂) []
    (tableEquiv_initInDegree hnd h)]

/-- C4 witness: reversing the entry order and the children iteration order
of a three-node fork leaves the output identical. -/
theorem C4_witness :
    topo_sort [("a", ⟨"a", [], ["b", "c"]⟩), ("b", ⟨"b", ["a"], []⟩),
        ("c", ⟨"c", ["a"], []⟩)] =
      topo_sort [("c", ⟨"c", ["a"], []⟩), ("b", ⟨"b", ["a"], []⟩),
        ("a", ⟨"a", [], ["c", "b"]⟩)] :=
  C4_deterministic _ _ (by decide)
    ⟨[("a", ⟨"a", [], ["c", "b"]⟩), ("b", ⟨"b", ["a"], []⟩), ("c", ⟨"c", ["a"], []⟩)],
      List.Forall₂.cons ⟨rfl, rfl, by decide, by decide⟩
        (List.Forall₂.cons ⟨rfl, rfl, by decide, by decide⟩
          (List.Forall₂.cons ⟨rfl, rfl, by decide, by decide⟩ List.Forall₂.nil)),
      by decide⟩

/-! ### C2/C3: Kahn correctness machinery -/

lemma remainingCount_append_not_mem {q : String} {l res : List String}
    (hq : q ∉ l) : remainingCount l (res ++ [q]) = remainingCount l res := by
  rw [remainingCount, remainingCount]
  have : ∀ p ∈ l, (decide (p ∉ res ++ [q]) : Bool) = decide (p ∉ res) := by
    intro p hp
    have hpq : p ≠ q := fun he => hq (he ▸ hp)
    simp [List.mem_append, hpq]
  rw [List.filter_congr this]

lemma remainingCount_append_mem :
    ∀ {l : List String} {q : String} {res : List String}, q ∈ l → l.Nodup →
      q ∉ res → remainingCount l (res ++ [q]) + 1 = remainingCount l res := by
  intro l
  induction l with
  | nil => intro q res hq _ _; simp at hq
  | cons a l ih =>
    intro q res hq hnd hqr
    obtain ⟨hal, hl⟩ := List.nodup_cons.mp hnd
    rcases List.mem_cons.mp hq with hq | hq
    · subst hq
      have h2 : remainingCount l (res ++ [q]) = remainingCount l res :=
        remainingCount_append_not_mem hal
      simp only [remainingCount] at h2 ⊢
      rw [List.filter_cons_of_neg (by simp), List.filter_cons_of_pos (by simp [hqr])]
      simp only [List.length_cons]
      omega
    · have hne : a ≠ q := fun he => hal (he ▸ hq)
      have hstep := ih hq hl hqr
      simp only [remainingCount] at hstep ⊢
      by_cases har : a ∈ res
      · rw [List.filter_cons_of_neg (by simp [har]),
          List.filter_cons_of_neg (by simp [har])]
        omega
      · rw [List.filter_cons_of_pos (by simp [har, hne]),
          List.filter_cons_of_pos (by simp [har])]
        simp only [List.length_cons]
        omega

lemma remainingCount_eq_zero {l res : List String} :
    remainingCount l res = 0 ↔ ∀ p ∈ l, p ∈ res := by
  rw [remainingCount, List.length_eq_zero, List.filter_eq_nil_iff]
  constructor
  · intro h p hp
    by_contra hc
    exact absurd (by simpa using hc) (by simpa using h p hp)
  · intro h p hp
    simp [h p hp]

lemma remainingCount_ne_zero {l res : List String} {p : String}
    (hp : p ∈ l) (hpr : p ∉ res) : remainingCount l res ≠ 0 := by
  intro hc
  exact hpr (remainingCount_eq_zero.mp hc p hp)

lemma isAncWithin_mono (t : NodeTable) :
    ∀ {m n : Nat} {a k : String}, m ≤ n → isAncWithin t m a k = true →
      isAncWithin t n a k = true := by
  intro m
  induction m with
  | zero => intro n a k _ h; simp [isAncWithin] at h
  | succ m ih =>
    intro n a k hmn h
    obtain ⟨n', rfl⟩ : ∃ n', n = n' + 1 := ⟨n - 1, by omega⟩
    simp only [isAncWithin] at h ⊢
    cases hnode : getNode t k with
    | none => rw [hnode] at h; exact absurd h (by simp)
    | some node =>
      rw [hnode] at h
      simp only [List.any_eq_true] at h ⊢
      obtain ⟨p, hp, hor⟩ := h
      refine ⟨p, hp, ?_⟩
      rcases Bool.or_eq_true_iff.mp hor with he | hrec
      · exact Bool.or_eq_true_iff.mpr (Or.inl he)
      · exact Bool.or_eq_true_iff.mpr (Or.inr (ih (by omega) hrec))

lemma isAncWithin_step (t : NodeTable) {k p a : String} {n : CommitNode} {m : Nat}
    (hnode : getNode t k = some n) (hp : p ∈ n.parents)
    (hor : p = a ∨ isAncWithin t m a p = true) :
    isAncWithin t (m + 1) a k = true := by
  simp only [isAncWithin, hnode, List.any_eq_true]
  refine ⟨p, hp, Bool.or_eq_true_iff.mpr ?_⟩
  rcases hor with he | hrec
  · exact Or.inl (by simp [he])
  · exact Or.inr hrec

lemma chain_to_anc (t : NodeTable) :
    ∀ (l : List String) (x y : String),
      List.Chain' (fun u v => ∃ n, getNode t u = some n ∧ v ∈ n.parents)
        (x :: (l ++ [y])) →
      isAncWithin t (l.length + 1) y x = true := by
  intro l
  induction l with
  | nil =>
    intro x y hch
    obtain ⟨n, hn, hy⟩ := (List.chain'_cons.mp hch).1
    exact isAncWithin_step t hn hy (Or.inl rfl)
  | cons z l ih =>
    intro x y hch
    rw [List.cons_append] at hch
    obtain ⟨⟨n, hn, hz⟩, hch2⟩ := List.chain'_cons.mp hch
    exact isAncWithin_step t hn hz (Or.inr (ih z y hch2))

lemma stalled_chain (t : NodeTable) (S : List String)
    (hstep : ∀ x ∈ S, ∃ p, p ∈ S ∧ ∃ n, getNode t x = some n ∧ p ∈ n.parents)
    {x0 : String} (hx0 : x0 ∈ S) :
    ∀ m : Nat, ∃ l : List String, l ≠ [] ∧ l.length = m + 1 ∧
      (∀ y ∈ l, y ∈ S) ∧
      List.Chain' (fun u v => ∃ n, getNode t u = some n ∧ v ∈ n.parents) l := by
  intro m
  induction m with
  | zero => exact ⟨[x0], by simp, rfl, by simpa using hx0, List.chain'_singleton x0⟩
  | succ m ih =>
    obtain ⟨l, hne, hlen, hmem, hch⟩ := ih
    have hlast : l.getLast hne ∈ S := hmem _ (List.getLast_mem hne)
    obtain ⟨p, hpS, hpstep⟩ := hstep _ hlast
    refine ⟨l ++ [p], by simp, by simp [hlen], ?_, ?_⟩
    · intro y hy
      rcases List.mem_append.mp hy with hy | hy
      · exact hmem y hy
      · rw [List.mem_singleton.mp hy]
        exact hpS
    · rw [List.chain'_append]
      refine ⟨hch, List.chain'_singleton p, ?_⟩
      intro u hu v hv
      rw [List.getLast?_eq_getLast l hne, Option.mem_def, Option.some.injEq] at hu
      simp only [List.head?_cons, Option.mem_def, Option.some.injEq] at hv
      rw [← hu, ← hv] at *
      exact hu ▸ hv ▸ hpstep

lemma exists_dup_decomp {α : Type} [DecidableEq α] :
    ∀ (l : List α), ¬ l.Nodup → ∃ l1 a l2 l3, l = l1 ++ a :: l2 ++ a :: l3 := by
  intro l
  induction l with
  | nil => intro h; exact absurd List.nodup_nil h
  | cons x xs ih =>
    intro h
    by_cases hx : x ∈ xs
    · obtain ⟨l2, l3, hxs⟩ := List.append_of_mem hx
      exact ⟨[], x, l2, l3, by simp [hxs]⟩
    · have hxs : ¬ xs.Nodup := by
        intro hn
        exact h (List.nodup_cons.mpr ⟨hx, hn⟩)
      obtain ⟨l1, a, l2, l3, hdec⟩ := ih hxs
      exact ⟨x :: l1, a, l2, l3, by simp [hdec]⟩

lemma nodup_length_le {α : Type} [DecidableEq α] {l keys : List α}
    (hnd : l.Nodup) (hsub : ∀ x ∈ l, x ∈ keys) : l.length ≤ keys.length := by
  classical
  have h1 : l.toFinset.card = l.length := List.toFinset_card_of_nodup hnd
  have h2 : l.toFinset ⊆ keys.toFinset := by
    intro x hx
    rw [List.mem_toFinset] at hx ⊢
    exact hsub x hx
  have h3 := Finset.card_le_card h2
  have h4 : keys.toFinset.card ≤ keys.length := keys.toFinset_card_le
  omega

lemma exists_cycle_of_stalled (t : NodeTable)
    (S : List String) (hSne : S ≠ []) (hSk : ∀ x ∈ S, x ∈ keysOf t)
    (hstep : ∀ x ∈ S, ∃ p, p ∈ S ∧ ∃ n, getNode t x = some n ∧ p ∈ n.parents) :
    ∃ a ∈ keysOf t, isAncWithin t t.length a a = true := by
  obtain ⟨x0, hx0⟩ := List.exists_mem_of_ne_nil S hSne
  obtain ⟨l, hlne, hlen, hmem, hch⟩ := stalled_chain t S hstep hx0 (keysOf t).length
  have hnodup : ¬ l.Nodup := by
    intro hn
    have := nodup_length_le hn (fun x hx => hSk x (hmem x hx))
    omega
  obtain ⟨l1, a, l2, l3, hdec⟩ := exists_dup_decomp l hnodup
  have haS : a ∈ S := hmem a (by rw [hdec]; simp)
  rw [hdec, List.append_assoc] at hch
  have hch2 := (List.chain'_append.mp hch).2.1
  have hsplit2 : (a :: l2) ++ a :: l3 = (a :: (l2 ++ [a])) ++ l3 := by simp
  rw [hsplit2] at hch2
  have hch3 := (List.chain'_append.mp hch2).1
  have hanc : isAncWithin t (l2.length + 1) a a = true := chain_to_anc t l2 a a hch3
  have hlenle : l2.length + 1 ≤ t.length := by
    rw [hdec] at hlen
    have hkl : (keysOf t).length = t.length := by simp [keysOf]
    simp only [List.length_append, List.length_cons] at hlen
    omega
  exact ⟨a, hSk a haS, isAncWithin_mono t hlenle hanc⟩

lemma keys_sub_res_of_stalled (t : NodeTable) (hcl : ClosedG t)
    (hac : AcyclicTable t) (res : List String)
    (hstall : ∀ k, k ∈ keysOf t → k ∉ res →
      ∃ n, getNode t k = some n ∧ remainingCount n.parents res ≠ 0) :
    ∀ k ∈ keysOf t, k ∈ res := by
  by_contra hc
  push_neg at hc
  obtain ⟨k0, hk0, hk0r⟩ := hc
  have hk0S : k0 ∈ (keysOf t).filter (fun k => decide (k ∉ res)) :=
    List.mem_filter.mpr ⟨hk0, by simp [hk0r]⟩
  have hSne : (keysOf t).filter (fun k => decide (k ∉ res)) ≠ [] := by
    intro he
    rw [he] at hk0S
    simp at hk0S
  have hSk : ∀ x ∈ (keysOf t).filter (fun k => decide (k ∉ res)), x ∈ keysOf t :=
    fun x hx => (List.mem_filter.mp hx).1
  have hSr : ∀ x ∈ (keysOf t).filter (fun k => decide (k ∉ res)), x ∉ res := by
    intro x hx
    have := (List.mem_filter.mp hx).2
    simpa using this
  have hstep : ∀ x ∈ (keysOf t).filter (fun k => decide (k ∉ res)),
      ∃ p, p ∈ (keysOf t).filter (fun k => decide (k ∉ res)) ∧
        ∃ n, getNode t x = some n ∧ p ∈ n.parents := by
    intro x hx
    obtain ⟨n, hn, hcnt⟩ := hstall x (hSk x hx) (hSr x hx)
    have hnall : ¬ ∀ p ∈ n.parents, p ∈ res :=
      fun hall => hcnt (remainingCount_eq_zero.mpr hall)
    push_neg at hnall
    obtain ⟨p, hp, hpr⟩ := hnall
    exact ⟨p, List.mem_filter.mpr ⟨(hcl x n hn).1 p hp, by simp [hpr]⟩, n, hn, hp⟩
  obtain ⟨a, hak, hanc⟩ := exists_cycle_of_stalled t _ hSne hSk hstep
  rw [hac a hak] at hanc
  exact Bool.noConfusion hanc

lemma sortLoop_spec (t : NodeTable) (hnd : (keysOf t).Nodup) (hcl : ClosedG t)
    (hco : ConsG t) (hsl : SetG t) (hac : AcyclicTable t) :
    ∀ (fuel : Nat) (deg : String → Option Int) (queue res : List String),
      res.Nodup → queue.Nodup →
      (∀ x ∈ res, x ∈ keysOf t) → (∀ x ∈ queue, x ∈ keysOf t) →
      (∀ x ∈ queue, x ∉ res) →
      (∀ k n, getNode t k = some n →
        deg k = some ((remainingCount n.parents res : Int))) →
      (∀ k, k ∈ keysOf t →
        (k ∈ queue ↔ k ∉ res ∧
          ∀ n, getNode t k = some n → remainingCount n.parents res = 0)) →
      (∀ c n, getNode t c = some n → c ∈ res →
        ∀ p ∈ n.parents, ∃ l1 l2, res = l1 ++ p :: l2 ∧ c ∈ l2) →
      remainingCount (keysOf t) res ≤ fuel →
      ∃ out, sortLoop t fuel deg queue res = some out ∧ out.Nodup ∧
        (∀ x, x ∈ out ↔ x ∈ keysOf t) ∧
        (∀ c n, getNode t c = some n →
          ∀ p ∈ n.parents, ∃ l1 l2, out = l1 ++ p :: l2 ∧ c ∈ l2) := by
  intro fuel
  induction fuel with
  | zero =>
    intro deg queue res hrnd hqnd hresk hqk hqnr hdeg hqmem horder hfuel
    cases queue with
    | nil =>
      have hsub : ∀ k ∈ keysOf t, k ∈ res := by
        apply keys_sub_res_of_stalled t hcl hac
        intro k hk hkr
        obtain ⟨n, hn⟩ := getNode_isSome hk
        refine ⟨n, hn, ?_⟩
        intro h0
        have : k ∈ ([] : List String) := (hqmem k hk).mpr ⟨hkr, by
          intro n' hn'
          rw [hn] at hn'
          injection hn' with hn'
          rw [← hn']
          exact h0⟩
        simp at this
      refine ⟨res, rfl, hrnd, fun x => ⟨fun hx => hresk x hx, fun hx => hsub x hx⟩, ?_⟩
      intro c n hn p hp
      exact horder c n hn (hsub c (mem_keysOf_of_getNode hn)) p hp
    | cons q qs =>
      have hq : q ∈ keysOf t := hqk q (List.mem_cons_self ..)
      have hqres : q ∉ res := hqnr q (List.mem_cons_self ..)
      have := remainingCount_ne_zero hq hqres
      omega
  | succ fuel ih =>
    intro deg queue res hrnd hqnd hresk hqk hqnr hdeg hqmem horder hfuel
    cases queue with
    | nil =>
      have hsub : ∀ k ∈ keysOf t, k ∈ res := by
        apply keys_sub_res_of_stalled t hcl hac
        intro k hk hkr
        obtain ⟨n, hn⟩ := getNode_isSome hk
        refine ⟨n, hn, ?_⟩
        intro h0
        have : k ∈ ([] : List String) := (hqmem k hk).mpr ⟨hkr, by
          intro n' hn'
          rw [hn] at hn'
          injection hn' with hn'
          rw [← hn']
          exact h0⟩
        simp at this
      refine ⟨res, rfl, hrnd, fun x => ⟨fun hx => hresk x hx, fun hx => hsub x hx⟩, ?_⟩
      intro c n hn p hp
      exact horder c n hn (hsub c (mem_keysOf_of_getNode hn)) p hp
    | cons q qs =>
      have hq : q ∈ keysOf t := hqk q (List.mem_cons_self ..)
      obtain ⟨node, hnode⟩ := getNode_isSome hq
      have hqres : q ∉ res := hqnr q (List.mem_cons_self ..)
      have hq_not_in_qs : q ∉ qs := (List.nodup_cons.mp hqnd).1
      have hqsnd : qs.Nodup := (List.nodup_cons.mp hqnd).2
      have hchn : (sortStrings node.children).Nodup :=
        sortStrings_nodup (hsl q node hnode).2
      have hchk : ∀ c ∈ sortStrings node.children, c ∈ keysOf t :=
        fun c hc => (hcl q node hnode).2 c (mem_sortStrings.mp hc)
      have hchd : ∀ c ∈ sortStrings node.children, ∃ v, deg c = some v := by
        intro c hc
        obtain ⟨m, hm⟩ := getNode_isSome (hchk c hc)
        exact ⟨_, hdeg c m hm⟩
      obtain ⟨deg', queue', hrun, hchar, hperm, _⟩ :=
        processChildren_spec (sortStrings node.children) deg qs hchn hchd
      have hchiff : ∀ k m, getNode t k = some m →
          (k ∈ sortStrings node.children ↔ q ∈ m.parents) := by
        intro k m hk
        rw [mem_sortStrings]
        exact (hco k q m node hk hnode).symm
      have hqmem_q : remainingCount node.parents res = 0 :=
        ((hqmem q hq).mp (List.mem_cons_self ..)).2 node hnode
      have hcount1 : ∀ k m, getNode t k = some m → deg k = some 1 →
          remainingCount m.parents res = 1 := by
        intro k m hk h1
        rw [hdeg k m hk] at h1
        injection h1 with h1
        exact_mod_cast h1
      have hdeg' : ∀ k m, getNode t k = some m →
          deg' k = some ((remainingCount m.parents (res ++ [q]) : Int)) := by
        intro k m hk
        rw [hchar k]
        by_cases hkc : k ∈ sortStrings node.children
        · rw [if_pos hkc, hdeg k m hk]
          have hqp : q ∈ m.parents := (hchiff k m hk).mp hkc
          have hrc := remainingCount_append_mem hqp (hsl k m hk).1 hqres
          simp only [Option.map_some']
          congr 1
          omega
        · rw [if_neg hkc, hdeg k m hk]
          have hqp : q ∉ m.parents := fun hqp => hkc ((hchiff k m hk).mpr hqp)
          rw [remainingCount_append_not_mem hqp]
      have hq'iff : ∀ k, k ∈ queue' ↔
          (k ∈ qs ∨ (k ∈ sortStrings node.children ∧ deg k = some 1)) := by
        intro k
        rw [hperm.mem_iff, List.mem_append, List.mem_filter]
        simp
      have hqs_props : ∀ x ∈ qs, x ∉ res ∧ x ∉ sortStrings node.children ∧ x ≠ q := by
        intro x hx
        have hxq : x ∈ q :: qs := List.mem_cons_of_mem _ hx
        have hxk : x ∈ keysOf t := hqk x hxq
        obtain ⟨m, hm⟩ := getNode_isSome hxk
        have h0 : remainingCount m.parents res = 0 := ((hqmem x hxk).mp hxq).2 m hm
        refine ⟨((hqmem x hxk).mp hxq).1, ?_, fun he => hq_not_in_qs (he ▸ hx)⟩
        intro hxc
        exact remainingCount_ne_zero ((hchiff x m hm).mp hxc) hqres h0
      have hch_props : ∀ x, x ∈ sortStrings node.children → deg x = some 1 →
          x ∉ res ∧ x ≠ q := by
        intro x hxc h1
        obtain ⟨m, hm⟩ := getNode_isSome (hchk x hxc)
        have hc1 : remainingCount m.parents res = 1 := hcount1 x m hm h1
        constructor
        · intro hxr
          have hall : ∀ p ∈ m.parents, p ∈ res := by
            intro p hp
            obtain ⟨l1, l2, hres_eq, _⟩ := horder x m hm hxr p hp
            rw [hres_eq]
            simp
          rw [remainingCount_eq_zero.mpr hall] at hc1
          exact absurd hc1 (by simp)
        · intro he
          subst he
          rw [hnode] at hm
          injection hm with hm
          rw [← hm] at hc1
          omega
      have hres'_nodup : (res ++ [q]).Nodup := by
        rw [List.nodup_append]
        exact ⟨hrnd, List.nodup_singleton q, by simpa [List.disjoint_singleton] using hqres⟩
      have hres'_keys : ∀ x ∈ res ++ [q], x ∈ keysOf t := by
        intro x hx
        rcases List.mem_append.mp hx with hx | hx
        · exact hresk x hx
        · rw [List.mem_singleton.mp hx]
          exact hq
      have hq'_nodup : queue'.Nodup := by
        rw [hperm.nodup_iff]
        rw [List.nodup_append]
        refine ⟨hqsnd, List.Nodup.filter _ hchn, ?_⟩
        intro x hx hxf
        exact (hqs_props x hx).2.1 (List.mem_of_mem_filter hxf)
      have hq'_keys : ∀ x ∈ queue', x ∈ keysOf t := by
        intro x hx
        rcases (hq'iff x).mp hx with hx | ⟨hx, _⟩
        · exact hqk x (List.mem_cons_of_mem _ hx)
        · exact hchk x hx
      have hq'_nres : ∀ x ∈ queue', x ∉ res ++ [q] := by
        intro x hx
        rcases (hq'iff x).mp hx with hx | ⟨hxc, hx1⟩
        · obtain ⟨h1, _, h3⟩ := hqs_props x hx
          simp [List.mem_append, h1, h3]
        · obtain ⟨h1, h3⟩ := hch_props x hxc hx1
          simp [List.mem_append, h1, h3]
      have hq'mem : ∀ k, k ∈ keysOf t →
          (k ∈ queue' ↔ k ∉ res ++ [q] ∧
            ∀ m, getNode t k = some m →
              remainingCount m.parents (res ++ [q]) = 0) := by
        intro k hk
        obtain ⟨m, hm⟩ := getNode_isSome hk
        rw [hq'iff k]
        constructor
        · rintro (hkqs | ⟨hkc, hk1⟩)
          · obtain ⟨h1, h2, h3⟩ := hqs_props k hkqs
            have h0 : remainingCount m.parents res = 0 :=
              ((hqmem k hk).mp (List.mem_cons_of_mem _ hkqs)).2 m hm
            have hqp : q ∉ m.parents := fun hqp => h2 ((hchiff k m hm).mpr hqp)
            refine ⟨by simp [List.mem_append, h1, h3], ?_⟩
            intro m' hm'
            rw [hm] at hm'
            injection hm' with hm'
            rw [← hm', remainingCount_append_not_mem hqp]
            exact h0
          · obtain ⟨h1, h3⟩ := hch_props k hkc hk1
            have hc1 : remainingCount m.parents res = 1 := hcount1 k m hm hk1
            have hqp : q ∈ m.parents := (hchiff k m hm).mp hkc
            have hrc := remainingCount_append_mem hqp (hsl k m hm).1 hqres
            refine ⟨by simp [List.mem_append, h1, h3], ?_⟩
            intro m' hm'
            rw [hm] at hm'
            injection hm' with hm'
            rw [← hm']
            omega
        · rintro ⟨hk1, hk2⟩
          have hkr : k ∉ res := fun hc => hk1 (List.mem_append.mpr (Or.inl hc))
          have hkq : k ≠ q := fun hc => hk1 (by simp [hc])
          have h0' : remainingCount m.parents (res ++ [q]) = 0 := hk2 m hm
          by_cases hkc : k ∈ sortStrings node.children
          · have hqp : q ∈ m.parents := (hchiff k m hm).mp hkc
            have hrc := remainingCount_append_mem hqp (hsl k m hm).1 hqres
            have hd1 : deg k = some 1 := by
              rw [hdeg k m hm]
              congr 1
              omega
            exact Or.inr ⟨hkc, hd1⟩
          · have hqp : q ∉ m.parents := fun hqp => hkc ((hchiff k m hm).mpr hqp)
            have h0 : remainingCount m.parents res = 0 := by
              rw [← remainingCount_append_not_mem hqp]
              exact h0'
            have hkin : k ∈ q :: qs := (hqmem k hk).mpr ⟨hkr, by
              intro m' hm'
              rw [hm] at hm'
              injection hm' with hm'
              rw [← hm']
              exact h0⟩
            rcases List.mem_cons.mp hkin with hkin | hkin
            · exact absurd hkin hkq
            · exact Or.inl hkin
      have horder' : ∀ c m, getNode t c = some m → c ∈ res ++ [q] →
          ∀ p ∈ m.parents, ∃ l1 l2, res ++ [q] = l1 ++ p :: l2 ∧ c ∈ l2 := by
        intro c m hm hc p hp
        rcases List.mem_append.mp hc with hc | hc
        · obtain ⟨l1, l2, heq, hcl2⟩ := horder c m hm hc p hp
          exact ⟨l1, l2 ++ [q], by rw [heq]; simp, by simp [hcl2]⟩
        · rw [List.mem_singleton.mp hc] at hm ⊢
          rw [hnode] at hm
          injection hm with hm
          have hpres : p ∈ res := by
            rw [← hm] at hp
            exact remainingCount_eq_zero.mp hqmem_q p hp
          obtain ⟨l1, l2, heq⟩ := List.append_of_mem hpres
          exact ⟨l1, l2 ++ [q], by rw [heq]; simp, by simp⟩
      have hfuel' : remainingCount (keysOf t) (res ++ [q]) ≤ fuel := by
        have hrc := remainingCount_append_mem hq hnd hqres
        omega
      obtain ⟨out, hout, houtnd, houtmem, houtord⟩ :=
        ih deg' queue' (res ++ [q]) hres'_nodup hq'_nodup hres'_keys hq'_keys
          hq'_nres hdeg' hq'mem horder' hfuel'
      refine ⟨out, ?_, houtnd, houtmem, houtord⟩
      simp only [sortLoop, hnode, hrun]
      exact hout

lemma remainingCount_nil (l : List String) : remainingCount l [] = l.length := by
  rw [remainingCount]
  have : ∀ p ∈ l, (decide (p ∉ ([] : List String)) : Bool) = true := by
    intro p _
    simp
  rw [List.filter_eq_self.mpr this]

lemma zeroList_sublist (t : NodeTable) :
    (((degreeItems t).filter (fun e => decide (e.2 = 0))).map Prod.fst).Sublist
      (keysOf t) := by
  have h1 : (((degreeItems t).filter (fun e => decide (e.2 = 0))).map Prod.fst).Sublist
      ((degreeItems t).map Prod.fst) :=
    ((degreeItems t).filter_sublist).map Prod.fst
  have h2 : (degreeItems t).map Prod.fst = keysOf t := by
    rw [degreeItems, keysOf, List.map_map]
    rfl
  rw [h2] at h1
  exact h1

lemma mem_zeroList_iff {t : NodeTable} (hnd : (keysOf t).Nodup) (k : String) :
    (k ∈ ((degreeItems t).filter (fun e => decide (e.2 = 0))).map Prod.fst ↔
      ∃ n, getNode t k = some n ∧ n.parents.length = 0) := by
  rw [List.mem_map]
  constructor
  · rintro ⟨e, he, hek⟩
    obtain ⟨he1, he2⟩ := List.mem_filter.mp he
    obtain ⟨a, ha, hae⟩ := List.mem_map.mp he1
    refine ⟨a.2, ?_, ?_⟩
    · rw [← hek, ← hae]
      exact getNode_of_mem hnd (by simpa using ha)
    · rw [← hae] at he2
      simpa using he2
  · rintro ⟨n, hn, hlen⟩
    refine ⟨(k, (n.parents.length : Int)), ?_, rfl⟩
    apply List.mem_filter.mpr
    constructor
    · rw [degreeItems]
      exact List.mem_map.mpr ⟨(k, n), getNode_mem hn, rfl⟩
    · simp [hlen]

lemma topo_sort_spec (t : NodeTable) (hwf : WFTable t) (hac : AcyclicTable t) :
    ∃ out, topo_sort t = some out ∧ out.Nodup ∧ out.Perm (keysOf t) ∧
      (∀ c n, getNode t c = some n → ∀ p ∈ n.parents,
        ∃ u v w, out = u ++ c :: v ++ p :: w) := by
  obtain ⟨hnd, hclT, hcoT, hslT⟩ := hwf
  have hcl : ClosedG t := closedG_of_closedTable hclT
  have hco : ConsG t := consG_of_consistentTable hcoT
  have hsl : SetG t := setG_of_setLikeTable hslT
  have hqnd : (initQueue t).Nodup :=
    sortStrings_nodup ((zeroList_sublist t).nodup hnd)
  have hdeg0 : ∀ k n, getNode t k = some n →
      initInDegree t k = some ((remainingCount n.parents [] : Int)) := by
    intro k n hn
    rw [initInDegree, hn, remainingCount_nil]
    rfl
  have hqmem0 : ∀ k, k ∈ keysOf t →
      (k ∈ initQueue t ↔ k ∉ ([] : List String) ∧
        ∀ n, getNode t k = some n → remainingCount n.parents [] = 0) := by
    intro k hk
    rw [initQueue, mem_sortStrings, mem_zeroList_iff hnd]
    constructor
    · rintro ⟨n, hn, hlen⟩
      refine ⟨by simp, ?_⟩
      intro n' hn'
      rw [hn] at hn'
      injection hn' with hn'
      rw [← hn', remainingCount_nil]
      exact hlen
    · rintro ⟨_, hall⟩
      obtain ⟨n, hn⟩ := getNode_isSome hk
      refine ⟨n, hn, ?_⟩
      rw [← remainingCount_nil n.parents]
      exact hall n hn
  have hfuel0 : remainingCount (keysOf t) [] ≤ t.length := by
    rw [remainingCount_nil]
    simp [keysOf]
  obtain ⟨out, hout, houtnd, houtmem, houtord⟩ :=
    sortLoop_spec t hnd hcl hco hsl hac t.length (initInDegree t) (initQueue t) []
      List.nodup_nil hqnd (by simp) (initQueue_keys t) (by simp) hdeg0 hqmem0
      (by simp) hfuel0
  refine ⟨out.reverse, ?_, by simpa using houtnd, ?_, ?_⟩
  · rw [topo_sort, hout]
    rfl
  · apply (List.perm_ext_iff_of_nodup (by simpa using houtnd) hnd).mpr
    intro a
    rw [List.mem_reverse]
    exact houtmem a
  · intro c n hn p hp
    obtain ⟨l1, l2, heq, hcl2⟩ := houtord c n hn p hp
    obtain ⟨a, b, hl2⟩ := List.append_of_mem hcl2
    refine ⟨b.reverse, a.reverse, l1.reverse, ?_⟩
    rw [heq, hl2]
    simp

/-- C2 counterexample: the claim quantifies over *every* NodeTable, but on
the two-node cyclic table x⇄y the sorter returns the empty sequence, not a
permutation of the two keys. -/
theorem C2_counterexample :
    topo_sort [("x", ⟨"x", ["y"], ["y"]⟩), ("y", ⟨"y", ["x"], ["x"]⟩)] = some [] ∧
      ¬ ([] : List String).Perm
        (keysOf [("x", ⟨"x", ["y"], ["y"]⟩), ("y", ⟨"y", ["x"], ["x"]⟩)]) := by
  constructor
  · decide
  · decide

/-- C2 (amended): for every NodeTable that models a duplicate-free dict of
set-valued nodes with closed, bidirectionally consistent adjacency *and an
acyclic parent relation*, `topo_sort` returns a sequence of exactly N
distinct identifiers — a permutation of the table's keys. -/
theorem C2_amended_totality (t : NodeTable) (hwf : WFTable t)
    (hac : AcyclicTable t) :
    ∃ out, topo_sort t = some out ∧ out.Nodup ∧ out.Perm (keysOf t) ∧
      out.length = t.length := by
  obtain ⟨out, hout, hnd, hperm, _⟩ := topo_sort_spec t hwf hac
  refine ⟨out, hout, hnd, hperm, ?_⟩
  rw [hperm.length_eq]
  simp [keysOf]

/-- C2 witness: the spec's end-to-end example, a two-commit chain. -/
theorem C2_witness :
    ∃ out, topo_sort [("a", ⟨"a", ["b"], []⟩), ("b", ⟨"b", [], ["a"]⟩)] = some out ∧
      out.Nodup ∧ out.Perm (keysOf [("a", ⟨"a", ["b"], []⟩), ("b", ⟨"b", [], ["a"]⟩)]) ∧
      out.length = ([("a", ⟨"a", ["b"], []⟩), ("b", ⟨"b", [], ["a"]⟩)] : NodeTable).length :=
  C2_amended_totality [("a", ⟨"a", ["b"], []⟩), ("b", ⟨"b", [], ["a"]⟩)]
    (by decide) (by decide)

/-- C3: for every well-formed acyclic NodeTable and every edge — parent `p`
declared by child `c` — the parent occurs strictly after the child in the
final (reversed) output sequence of `topo_sort`. -/
theorem C3_parent_after_child (t : NodeTable) (hwf : WFTable t)
    (hac : AcyclicTable t) (c p : String) (n : CommitNode)
    (hn : getNode t c = some n) (hp : p ∈ n.parents) :
    ∃ out u v w, topo_sort t = some out ∧ out = u ++ c :: v ++ p :: w := by
  obtain ⟨out, hout, _, _, hord⟩ := topo_sort_spec t hwf hac
  obtain ⟨u, v, w, huvw⟩ := hord c n hn p hp
  exact ⟨out, u, v, w, hout, huvw⟩

/-- C3 witness: in the two-commit chain (b parent of a) the output is
`[a, b]`: the parent comes strictly after the child. -/
theorem C3_witness :
    ∃ out u v w,
      topo_sort [("a", ⟨"a", ["b"], []⟩), ("b", ⟨"b", [], ["a"]⟩)] = some out ∧
        out = u ++ "a" :: v ++ "b" :: w :=
  C3_parent_after_child [("a", ⟨"a", ["b"], []⟩), ("b", ⟨"b", [], ["a"]⟩)]
    (by decide) (by decide) "a" "b" ⟨"a", ["b"], []⟩ (by decide) (by decide)
